import Mathlib

/-!
Verification of the xlte telemetry/KPI toolkit against its specification.

This file contains a shallow embedding, in Lean 4, of the parts of the
xlte code base (kpi.py, amari/drb.py, amari/xlog.py) that the examined
claims are about, together with theorems settling each claim.

Conventions of the embedding:
- Python floats are modelled by exact rationals ℚ.  NaN, where it is
  semantically relevant (the NA sentinel of kpi.py), is modelled with
  Option: none stands for NaN/NA.
- Stateful Python objects become explicit state records, and methods
  become pure functions from state to state plus outputs.
- Fallible code returns Except or Option.
-/

set_option maxRecDepth 10000

namespace Xlte

/-- tti = 1 millisecond, expressed in seconds (drb.py: tti = 1*time.millisecond). -/
def tti : ℚ := 1/1000

/-- LOS_window from xlog.py: a valid xlog stream has a sync event at least
every LOS_window entries. -/
def LOS_window : ℕ := 1000

/-! ## NA / isNA  (kpi.py)

kpi.py defines NA for floating point dtypes (NaN), signed integer dtypes
(the minimum representable value) and structured dtypes (the field-wise
combination of the fields' NAs, recursing into structured fields); isNA
recognizes NA with an explicit isnan check because NaN == NaN is false.
np.isnan raises TypeError when applied to a structured scalar, so isNA
raises on a structured dtype with a structured field.

A float value is modelled as Option ℚ with none playing the role of NaN;
a signed integer value as ℤ.  Field lists are a mutual inductive so that
the recursive NA stays structural.
-/

mutual
/-- Dtypes for which kpi.py NA() has a branch: floats, w-bit signed
integers, and structured dtypes whose fields are themselves such dtypes
(NA() recurses into the fields). -/
inductive Dtype
| flt
| sint (w : ℕ)
| strct (fields : DtypeFields)
/-- The ordered fields of a structured dtype. -/
inductive DtypeFields
| fnil
| fcons (d : Dtype) (ds : DtypeFields)
end

mutual
/-- Model of a numpy scalar value: a float (none = NaN), a signed integer,
or a structured scalar. -/
inductive Val
| fv (x : Option ℚ)
| iv (n : ℤ)
| strct (vs : ValFields)
/-- The field values of a structured scalar. -/
inductive ValFields
| fnil
| fcons (v : Val) (vs : ValFields)
end

mutual
/-- kpi.py NA(dtype): NaN for floats, the minimum representable value for
w-bit signed integers, and for structured dtypes the combination of the
NAs of the fields (recursive, as in the source). -/
def dNA : Dtype → Val
| .flt => .fv none
| .sint w => .iv (-(2 ^ (w - 1)))
| .strct fields => .strct (dNAFields fields)
/-- NA of every field of a structured dtype. -/
def dNAFields : DtypeFields → ValFields
| .fnil => .fnil
| .fcons d ds => .fcons (dNA d) (dNAFields ds)
end

/-- np.isnan on a scalar value: true exactly on NaN, false on numbers, and
TypeError (none) on structured scalars. -/
def npIsNan : Val → Option Bool
| .fv none => some true
| .fv (some _) => some false
| .iv _ => some false
| .strct _ => none

/-- numpy == on scalar values as used by isNA: NaN compares unequal to
everything (NaN included); a structured operand is never reached on the
non-raising paths (np.isnan nf raises first), so it is modelled as
unequal. -/
def valEq : Val → Val → Bool
| .fv (some a), .fv (some b) => a == b
| .fv _, .fv _ => false
| .iv a, .iv b => a == b
| _, _ => false

/-- One iteration of the isNA field loop on (nf, vf) = (na[field],
value[field]): np.isnan(nf) raises TypeError (error ()) when the field is
structured; a NaN sentinel is matched with isnan, everything else with
==. -/
def isNAOne (nf vf : Val) : Except Unit Bool :=
  match npIsNan nf with
  | none => .error ()
  | some true =>
      match npIsNan vf with
      | none => .error ()
      | some b => .ok b
  | some false => .ok (valEq vf nf)

/-- The isNA field loop: vna accumulates the conjunction, none before the
first field (a structure without fields returns None, as in the source). -/
def isNALoop : Option Bool → List (Val × Val) → Except Unit (Option Bool)
| vna, [] => .ok vna
| vna, p :: rest =>
    match isNAOne p.1 p.2 with
    | .error e => .error e
    | .ok x =>
        isNALoop (some (match vna with | none => x | some b => b && x)) rest

/-- The (na[field], value[field]) pairs iterated by the isNA field loop
(value always has exactly the fields of its dtype). -/
def fieldPairs : ValFields → ValFields → List (Val × Val)
| .fcons a as, .fcons b bs => (a, b) :: fieldPairs as bs
| _, _ => []

/-- kpi.py isNA on a scalar value of dtype d (value.dtype = d): when na =
NA(d) is a structured scalar, loop over the fields; otherwise match the
NaN sentinel with isnan and all others with ==.  error () is the TypeError
raised by np.isnan on a structured field; ok none is the None returned for
a structure without fields.  (A value whose shape differs from its dtype
cannot occur.) -/
def dIsNA (d : Dtype) (v : Val) : Except Unit (Option Bool) :=
  match d, v with
  | .strct fields, .strct vs => isNALoop none (fieldPairs (dNAFields fields) vs)
  | d, v =>
      match npIsNan (dNA d) with
      | none => .error ()
      | some true =>
          match npIsNan v with
          | none => .error ()
          | some b => .ok (some b)
      | some false => .ok (some (valEq v (dNA d)))

/-- Is the dtype a numeric scalar? -/
def scalarD : Dtype → Bool
| .flt => true
| .sint _ => true
| .strct _ => false

/-- Are all fields numeric scalars? -/
def flatFields : DtypeFields → Bool
| .fnil => true
| .fcons d ds => scalarD d && flatFields ds

/-- Dtypes on which isNA(NA(d)) actually returns True: numeric scalars and
structured dtypes with at least one field, all fields numeric scalars (the
shape of the program's Stat/StatT dtypes). -/
def flatD : Dtype → Bool
| .strct .fnil => false
| .strct fields => flatFields fields
| _ => true

lemma isNAOne_refl_scalar (d : Dtype) (hd : scalarD d = true) :
    isNAOne (dNA d) (dNA d) = .ok true := by
  cases d with
  | flt => rfl
  | sint w => simp [isNAOne, dNA, npIsNan, valEq]
  | strct fields => simp [scalarD] at hd

lemma isNALoop_all_true : ∀ (ps : List (Val × Val)) (b : Bool),
    (∀ p ∈ ps, isNAOne p.1 p.2 = .ok true) →
    isNALoop (some b) ps = .ok (some b) := by
  intro ps
  induction ps with
  | nil => intro b _; rfl
  | cons p rest ih =>
      intro b hall
      have h1 : isNAOne p.1 p.2 = .ok true := hall p (by simp)
      simp only [isNALoop, h1]
      rw [show (b && true) = b from Bool.and_true b]
      exact ih b (fun q hq => hall q (List.mem_cons_of_mem _ hq))

lemma isNALoop_start (p : Val × Val) (rest : List (Val × Val))
    (h1 : isNAOne p.1 p.2 = .ok true)
    (hall : ∀ q ∈ rest, isNAOne q.1 q.2 = .ok true) :
    isNALoop none (p :: rest) = .ok (some true) := by
  simp only [isNALoop, h1]
  exact isNALoop_all_true rest true hall

lemma fieldPairs_na_ok : (fs : DtypeFields) → flatFields fs = true →
    ∀ p ∈ fieldPairs (dNAFields fs) (dNAFields fs), isNAOne p.1 p.2 = .ok true
| .fnil, _, p, hp => by simp [dNAFields, fieldPairs] at hp
| .fcons d ds, hf, p, hp => by
    obtain ⟨hd, hds⟩ : scalarD d = true ∧ flatFields ds = true := by
      simpa [flatFields] using hf
    rw [show dNAFields (DtypeFields.fcons d ds)
        = ValFields.fcons (dNA d) (dNAFields ds) from rfl] at hp
    rw [show fieldPairs (ValFields.fcons (dNA d) (dNAFields ds))
          (ValFields.fcons (dNA d) (dNAFields ds))
        = (dNA d, dNA d) :: fieldPairs (dNAFields ds) (dNAFields ds) from rfl] at hp
    rcases List.mem_cons.mp hp with h | h
    · rw [h]
      exact isNAOne_refl_scalar d hd
    · exact fieldPairs_na_ok ds hds p h

/-- C10 (amended): for floating point dtypes, signed integer dtypes, and
structured dtypes with at least one field, all fields numeric scalars (the
shape of the program's Stat/StatT dtypes), the NA sentinel is recognized:
isNA(NA(dtype)) returns True.  The claim's full recursive scope fails: on
a structured dtype with a structured field — for which NA() is defined
recursively — isNA raises TypeError instead (see the nested
counterexample). -/
theorem c10_isna_of_na (d : Dtype) (h : flatD d = true) :
    dIsNA d (dNA d) = .ok (some true) := by
  cases d with
  | flt => rfl
  | sint w =>
      show (match npIsNan (dNA (Dtype.sint w)) with
        | none => (Except.error () : Except Unit (Option Bool))
        | some true =>
            match npIsNan (dNA (Dtype.sint w)) with
            | none => .error ()
            | some b => .ok (some b)
        | some false => .ok (some (valEq (dNA (Dtype.sint w)) (dNA (Dtype.sint w)))))
        = .ok (some true)
      simp [dNA, npIsNan, valEq]
  | strct fields =>
      cases fields with
      | fnil => simp [flatD] at h
      | fcons f fs =>
          have hf : flatFields (DtypeFields.fcons f fs) = true := by
            simpa [flatD] using h
          obtain ⟨hd, hds⟩ : scalarD f = true ∧ flatFields fs = true := by
            simpa [flatFields] using hf
          show isNALoop none
              (fieldPairs (dNAFields (DtypeFields.fcons f fs))
                (dNAFields (DtypeFields.fcons f fs))) = .ok (some true)
          rw [show dNAFields (DtypeFields.fcons f fs)
              = ValFields.fcons (dNA f) (dNAFields fs) from rfl]
          rw [show fieldPairs (ValFields.fcons (dNA f) (dNAFields fs))
                (ValFields.fcons (dNA f) (dNAFields fs))
              = (dNA f, dNA f) :: fieldPairs (dNAFields fs) (dNAFields fs) from rfl]
          exact isNALoop_start _ _ (isNAOne_refl_scalar f hd) (fieldPairs_na_ok fs hds)

/-- A structured dtype with a structured field, as the recursive NA()
admits. -/
def c10nested : Dtype :=
  .strct (.fcons (.strct (.fcons .flt .fnil)) .fnil)

/-- C10 counterexample to the claim over its stated recursive scope: on a
structured dtype with a structured field, isNA(NA(dtype)) does not hold —
np.isnan of the structured field raises TypeError. -/
theorem c10_nested_typeerror :
    dIsNA c10nested (dNA c10nested) = .error () := rfl

/-- Witness for c10_isna_of_na at a Stat-shaped dtype (float and int32
fields). -/
theorem c10_isna_of_na_witness :
    flatD (Dtype.strct (.fcons .flt (.fcons (.sint 32) .fnil))) = true ∧
    dIsNA (Dtype.strct (.fcons .flt (.fcons (.sint 32) .fnil)))
        (dNA (Dtype.strct (.fcons .flt (.fcons (.sint 32) .fnil))))
      = .ok (some true) :=
  ⟨rfl, c10_isna_of_na (Dtype.strct (.fcons .flt (.fcons (.sint 32) .fnil))) rfl⟩

/-! ## DRB samples  (amari/drb.py)

Sample carries tx_bytes, tx_time and tx_time_err; times are in seconds.
-/

/-- Sample from amari/drb.py: one burst of continuous transmission. -/
structure SampleM where
  tx_bytes : ℚ
  tx_time : ℚ
  tx_time_err : ℚ
deriving DecidableEq

/-- The accounting step of `account` in _x_stats_srv (drb.py), for one
sample: the sample is rejected (returns none, nothing accumulated) when
t_hi ≤ 1·tti or (t_hi ≤ 2 and tx_bytes < 1000), where t_hi = tx_time +
tx_time_err; otherwise the contribution (tx_bytes, tx_time, tx_time_err)
is added to the per-QCI accumulators.  Note that the source compares t_hi,
which is in seconds, against the bare constant 2. -/
def accountSample (s : SampleM) : Option (ℚ × ℚ × ℚ) :=
  let t_hi := s.tx_time + s.tx_time_err
  if t_hi ≤ 1 * tti ∨ (t_hi ≤ 2 ∧ s.tx_bytes < 1000) then none
  else some (s.tx_bytes, s.tx_time, s.tx_time_err)

/-- The rejection condition as the specification states it: t+e ≤ 1 tti,
or t+e ≤ 2 tti and tx_bytes < 1000. -/
def accountRejectSpec (s : SampleM) : Prop :=
  s.tx_time + s.tx_time_err ≤ 1 * tti ∨
  (s.tx_time + s.tx_time_err ≤ 2 * tti ∧ s.tx_bytes < 1000)

instance (s : SampleM) : Decidable (accountRejectSpec s) :=
  inferInstanceAs (Decidable (_ ≤ _ ∨ (_ ≤ _ ∧ _ < _)))

/-- C2: the accounting step of the x.drb_stats sub-server diverges from the
specified filter.  For the sample with tx_bytes = 500, tx_time = 1/20 s
(50 tti) and tx_time_err = 0, the code rejects the sample (it compares
t_hi, in seconds, against the bare constant 2 instead of 2·tti), while per
the stated filter the sample must be accounted since t+e = 50 tti > 2 tti. -/
theorem c2_account_small_filter_bug :
    accountSample ⟨500, 1/20, 0⟩ = none ∧ ¬ accountRejectSpec ⟨500, 1/20, 0⟩ := by
  constructor
  · with_unfolding_all decide
  · with_unfolding_all decide

/-! ## _QCI_Flow  (amari/drb.py)

_QCI_Flow accumulates (tx_bytes, tx_time, tx_time_err) over transmission
updates and emits Samples.  Its callers (_UE._update_qci_flows) assert
tx_bytes > 0 and 0 < tx_lo ≤ tx_hi for every update.
-/

/-- State of _QCI_Flow: accumulated bytes, time and time accuracy. -/
structure QFState where
  tx_bytes : ℚ
  tx_time : ℚ
  tx_time_err : ℚ
deriving DecidableEq

/-- Freshly created _QCI_Flow. -/
def qfInit : QFState := ⟨0, 0, 0⟩

/-- _QCI_Flow._sample: build a Sample from the accumulated state. -/
def qfSample (qf : QFState) : SampleM := ⟨qf.tx_bytes, qf.tx_time, qf.tx_time_err⟩

/-- _QCI_Flow._update translated from drb.py: accumulate the update;
if the update continues a sample (tx_time was nonzero) and is small
(tx_hi < 0.9·δt/tti), flush the accumulated state as a finished Sample. -/
def qfUpdate (qf : QFState) (dt tx_bytes lo hi : ℚ) : Option SampleM × QFState :=
  let dt_tti := dt / tti
  let tx_time := (lo + hi) / 2 * tti
  let tx_time_err := (hi - lo) / 2 * tti
  let qf1 : QFState := ⟨qf.tx_bytes + tx_bytes, qf.tx_time + tx_time,
                        qf.tx_time_err + tx_time_err⟩
  if qf.tx_time ≠ 0 ∧ hi < (9/10) * dt_tti then
    (some (qfSample qf1), qfInit)
  else
    (none, qf1)

/-- _QCI_Flow.finish translated from drb.py: flush a non-empty accumulator. -/
def qfFinish (qf : QFState) : List SampleM :=
  if qf.tx_time ≠ 0 then [qfSample qf] else []

/-- One update fed to _QCI_Flow.update. -/
structure QFUpd where
  dt : ℚ
  tx_bytes : ℚ
  lo : ℚ
  hi : ℚ
deriving DecidableEq

/-- Run a _QCI_Flow over a list of updates, collecting all Samples emitted
by update calls and by the final finish call. -/
def qfRunGo : QFState → List QFUpd → List SampleM
| qf, [] => qfFinish qf
| qf, u :: us =>
    let r := qfUpdate qf u.dt u.tx_bytes u.lo u.hi
    r.1.toList ++ qfRunGo r.2 us

/-- All Samples produced by a fresh _QCI_Flow fed with the given updates. -/
def qfRun (us : List QFUpd) : List SampleM := qfRunGo qfInit us

/-- The Sample invariant claimed by the specification (and asserted by
_QCI_Flow._sample). -/
def SampleOK (s : SampleM) : Prop :=
  0 < s.tx_bytes ∧ 0 < s.tx_time ∧ 0 ≤ s.tx_time_err ∧ 0 < s.tx_time - s.tx_time_err

instance (s : SampleM) : Decidable (SampleOK s) :=
  inferInstanceAs (Decidable (_ < _ ∧ _ < _ ∧ _ ≤ _ ∧ _ < _))

/-- Precondition on updates established by _UE._update_qci_flows: positive
byte count and 0 < tx_lo ≤ tx_hi. -/
def QFUpdOK (u : QFUpd) : Prop := 0 < u.tx_bytes ∧ 0 < u.lo ∧ u.lo ≤ u.hi

instance (u : QFUpd) : Decidable (QFUpdOK u) :=
  inferInstanceAs (Decidable (_ < _ ∧ _ < _ ∧ _ ≤ _))

/-- Invariant of the _QCI_Flow state: fresh, or strictly positive
accumulation satisfying the Sample invariant. -/
def QFInv (qf : QFState) : Prop :=
  qf = qfInit ∨ SampleOK (qfSample qf)

lemma tti_pos : 0 < tti := by norm_num [tti]

lemma qfUpdate_inv (qf : QFState) (u : QFUpd) (h : QFInv qf) (hu : QFUpdOK u) :
    QFInv (qfUpdate qf u.dt u.tx_bytes u.lo u.hi).2 ∧
    (∀ s, (qfUpdate qf u.dt u.tx_bytes u.lo u.hi).1 = some s → SampleOK s) := by
  obtain ⟨hb, hlo, hlohi⟩ := hu
  have hbytes : 0 ≤ qf.tx_bytes ∧ 0 ≤ qf.tx_time ∧ 0 ≤ qf.tx_time_err ∧
      0 ≤ qf.tx_time - qf.tx_time_err := by
    rcases h with h | h
    · rw [h]; norm_num [qfInit]
    · obtain ⟨h1, h2, h3, h4⟩ := h
      exact ⟨le_of_lt h1, le_of_lt h2, h3, le_of_lt h4⟩
  obtain ⟨hqb, hqt, hqe, hqte⟩ := hbytes
  have ht : 0 < tti := tti_pos
  have hlh : 0 < (u.lo + u.hi) / 2 * tti :=
    mul_pos (by linarith) ht
  have hhl : 0 ≤ (u.hi - u.lo) / 2 * tti :=
    mul_nonneg (by linarith) (le_of_lt ht)
  have hlot : 0 < u.lo * tti := mul_pos hlo ht
  have hOK : SampleOK (qfSample ⟨qf.tx_bytes + u.tx_bytes,
      qf.tx_time + (u.lo + u.hi) / 2 * tti,
      qf.tx_time_err + (u.hi - u.lo) / 2 * tti⟩) := by
    simp only [SampleOK, qfSample]
    refine ⟨by linarith, by linarith, by linarith, ?_⟩
    have key : (qf.tx_time + (u.lo + u.hi) / 2 * tti) -
               (qf.tx_time_err + (u.hi - u.lo) / 2 * tti) =
               (qf.tx_time - qf.tx_time_err) + u.lo * tti := by ring
    rw [key]
    linarith
  simp only [qfUpdate]
  by_cases hc : qf.tx_time ≠ 0 ∧ u.hi < (9/10) * (u.dt / tti)
  · rw [if_pos hc]
    exact ⟨Or.inl rfl, fun s hs => by cases hs; exact hOK⟩
  · rw [if_neg hc]
    exact ⟨Or.inr hOK, fun s hs => by cases hs⟩

lemma qfRunGo_ok (us : List QFUpd) : ∀ (qf : QFState), QFInv qf →
    (∀ u ∈ us, QFUpdOK u) → ∀ s ∈ qfRunGo qf us, SampleOK s := by
  induction us with
  | nil =>
      intro qf hqf _ s hs
      simp only [qfRunGo, qfFinish] at hs
      by_cases h0 : qf.tx_time ≠ 0
      · rw [if_pos h0] at hs
        rw [List.mem_singleton] at hs
        subst hs
        rcases hqf with h | h
        · exact absurd (by rw [h]; rfl) h0
        · exact h
      · rw [if_neg h0] at hs
        simp at hs
  | cons u us ih =>
      intro qf hqf hus s hs
      simp only [qfRunGo, List.mem_append] at hs
      have hu : QFUpdOK u := hus u (List.mem_cons_self u us)
      have hrest : ∀ v ∈ us, QFUpdOK v := fun v hv => hus v (List.mem_cons_of_mem u hv)
      obtain ⟨hinv, hemit⟩ := qfUpdate_inv qf u hqf hu
      rcases hs with hs | hs
      · cases hopt : (qfUpdate qf u.dt u.tx_bytes u.lo u.hi).1 with
        | none => rw [hopt] at hs; simp [Option.toList] at hs
        | some s1 =>
            rw [hopt] at hs
            simp only [Option.toList, List.mem_singleton] at hs
            subst hs
            exact hemit _ hopt
      · exact ih _ hinv hrest s hs

/-- C7: every Sample produced by the DRB per-QCI flow accumulator — through
update calls or the final finish — satisfies tx_bytes > 0, tx_time > 0,
tx_time_err ≥ 0 and tx_time − tx_time_err > 0, provided each update
satisfies the precondition asserted by its caller _update_qci_flows
(tx_bytes > 0 and 0 < tx_lo ≤ tx_hi). -/
theorem c7_sample_invariant (us : List QFUpd) (s : SampleM)
    (hus : ∀ u ∈ us, QFUpdOK u) (hs : s ∈ qfRun us) : SampleOK s :=
  qfRunGo_ok us qfInit (Or.inl rfl) hus s hs

/-- Witness for C7 at a concrete run: a single update of 1000 bytes with
tx time in [5,5] tti over a 10 ms frame yields the sample
(1000 bytes, 5 tti, ±0). -/
theorem c7_sample_invariant_witness :
    (∀ u ∈ [QFUpd.mk (1/100) 1000 5 5], QFUpdOK u) ∧
    ((⟨1000, 1/200, 0⟩ : SampleM) ∈ qfRun [QFUpd.mk (1/100) 1000 5 5]) ∧
    SampleOK ⟨1000, 1/200, 0⟩ :=
  ⟨by with_unfolding_all decide, by with_unfolding_all decide,
   c7_sample_invariant [QFUpd.mk (1/100) 1000 5 5] ⟨1000, 1/200, 0⟩
     (by with_unfolding_all decide) (by with_unfolding_all decide)⟩

/-! ## MeasurementLog windowing and the success-rate helper  (kpi.py)

For the claims about Calc windowing and Calc._success_rate only four fields
of a Measurement matter: X.Tstart, X.δT and the two counter values that
_success_rate reads through vget (the init counter and the fini counter).
NA is modelled with Option (none = NA).
-/

/-- A Measurement restricted to the fields used by Calc windowing and
Calc._success_rate: X.Tstart, X.δT, and the init/fini counter values as
obtained by vget (none = NA). -/
structure Meas where
  Tstart : ℚ
  dT : ℚ
  init : Option ℚ
  fini : Option ℚ
deriving DecidableEq

/-- An NA-only Measurement spanning [t, t+d), as synthesized by _miter for
holes (Measurement() with only X.Tstart and X.δT filled in). -/
def hole (t d : ℚ) : Meas := ⟨t, d, none, none⟩

/-- Calc state: the data slice plus the potentially widened interval. -/
structure CalcW where
  data : List Meas
  t_lo : ℚ
  t_hi : ℚ
deriving DecidableEq

/-- The data slice selected by Calc.__init__: drop records until the first
with τ_lo < Tstart+δT, then take records while Tstart < τ_hi. -/
def calcSlice (mlog : List Meas) (t_lo t_hi : ℚ) : List Meas :=
  (mlog.dropWhile (fun m => decide (m.Tstart + m.dT ≤ t_lo))).takeWhile
    (fun m => decide (m.Tstart < t_hi))

/-- Calc.__init__ translated from kpi.py: take the slice of the log between
the first record with τ_lo < Tstart+δT and the first record with
τ_hi ≤ Tstart, then widen [τ_lo, τ_hi) to fully cover the slice. -/
def calcInit (mlog : List Meas) (t_lo t_hi : ℚ) : CalcW :=
  match (calcSlice mlog t_lo t_hi).head?, (calcSlice mlog t_lo t_hi).getLast? with
  | some mlo, some mhi =>
      ⟨calcSlice mlog t_lo t_hi, min t_lo mlo.Tstart, max t_hi (mhi.Tstart + mhi.dT)⟩
  | _, _ => ⟨calcSlice mlog t_lo t_hi, t_lo, t_hi⟩

/-- Calc._miter translated from kpi.py: walk [t, z) across the data,
yielding an NA-only hole before every record that starts later than the
current position, the record itself, and a trailing NA-only hole. -/
def miterGo (z : ℚ) : ℚ → List Meas → List Meas
| t, [] => if t < z then [hole t (z - t)] else []
| t, m :: rest =>
    (if t < m.Tstart then [hole t (m.Tstart - t)] else []) ++
    m :: miterGo z (m.Tstart + m.dT) rest

/-- All Measurements yielded by Calc._miter. -/
def miter (c : CalcW) : List Meas := miterGo c.t_hi c.t_lo c.data

/-- Calc._miter with its assertions kept: `assert m_τlo < m_τhi` before
yielding each data record and `assert τ <= calc.τ_hi` after the last one;
none models the AssertionError raised while iterating. -/
def miterGoM (z : ℚ) : ℚ → List Meas → Option (List Meas)
| t, [] =>
    if t ≤ z then some (if t < z then [hole t (z - t)] else []) else none
| t, m :: rest =>
    if m.Tstart < m.Tstart + m.dT then
      match miterGoM z (m.Tstart + m.dT) rest with
      | none => none
      | some l =>
          some ((if t < m.Tstart then [hole t (m.Tstart - t)] else []) ++ m :: l)
    else none

/-- Complete iteration of Calc._miter: the yielded Measurements, or none if
an assertion fails along the way. -/
def miterM (c : CalcW) : Option (List Meas) := miterGoM c.t_hi c.t_lo c.data

/-- Accumulator of the loop in Calc._success_rate. -/
structure SRAcc where
  t_ : ℚ
  St : ℚ
  Sinit : ℚ
  Sfini : ℚ
  Sufini : ℚ
deriving DecidableEq

/-- One iteration of the loop in Calc._success_rate: NA init contributes
its δT to t⁺ (fini is ignored); otherwise δT goes to Σt, init to Σinit,
and fini to Σfini when non-NA or init to Σufini when fini is NA. -/
def srStep (a : SRAcc) (m : Meas) : SRAcc :=
  match m.init with
  | none => ⟨a.t_ + m.dT, a.St, a.Sinit, a.Sfini, a.Sufini⟩
  | some vinit =>
      match m.fini with
      | none => ⟨a.t_, a.St + m.dT, a.Sinit + vinit, a.Sfini, a.Sufini + vinit⟩
      | some vfini => ⟨a.t_, a.St + m.dT, a.Sinit + vinit, a.Sfini + vfini, a.Sufini⟩

/-- Calc._success_rate translated from kpi.py, as an interval (lo, hi). -/
def success_rate (c : CalcW) : ℚ × ℚ :=
  let a := (miter c).foldl srStep ⟨0, 0, 0, 0, 0⟩
  if a.Sinit = 0 ∨ a.St = 0 then (0, 1)
  else
    let init_ := a.t_ * a.Sinit / a.St
    (a.Sfini / (a.Sinit + init_), (a.Sfini + init_ + a.Sufini) / (a.Sinit + init_))

/-- Σt of the claim: total δT of records with non-NA init. -/
def specSt (ms : List Meas) : ℚ := ((ms.filter (fun m => m.init.isSome)).map (·.dT)).sum

/-- t⁺ of the claim: total δT of the remaining records (NA init). -/
def specTplus (ms : List Meas) : ℚ := ((ms.filter (fun m => !m.init.isSome)).map (·.dT)).sum

/-- Σinit of the claim: sum of init over records with non-NA init. -/
def specSinit (ms : List Meas) : ℚ :=
  ((ms.filter (fun m => m.init.isSome)).map (fun m => m.init.getD 0)).sum

/-- Σfini of the claim: sum of fini over records with non-NA init and
non-NA fini. -/
def specSfini (ms : List Meas) : ℚ :=
  ((ms.filter (fun m => m.init.isSome && m.fini.isSome)).map (fun m => m.fini.getD 0)).sum

/-- Σufini of the claim: sum of init over records with non-NA init but NA
fini. -/
def specSufini (ms : List Meas) : ℚ :=
  ((ms.filter (fun m => m.init.isSome && !m.fini.isSome)).map (fun m => m.init.getD 0)).sum

/-- The success-rate interval as the claim states it, over a record list. -/
def specSuccessRate (ms : List Meas) : ℚ × ℚ :=
  if specSinit ms = 0 ∨ specSt ms = 0 then (0, 1)
  else
    let initp := specTplus ms * specSinit ms / specSt ms
    (specSfini ms / (specSinit ms + initp),
     (specSfini ms + initp + specSufini ms) / (specSinit ms + initp))

lemma specTplus_cons (m : Meas) (ms : List Meas) :
    specTplus (m :: ms) = (if m.init.isSome then 0 else m.dT) + specTplus ms := by
  unfold specTplus
  rw [List.filter_cons]
  cases hI : m.init <;> simp [hI]

lemma specSt_cons (m : Meas) (ms : List Meas) :
    specSt (m :: ms) = (if m.init.isSome then m.dT else 0) + specSt ms := by
  unfold specSt
  rw [List.filter_cons]
  cases hI : m.init <;> simp [hI]

lemma specSinit_cons (m : Meas) (ms : List Meas) :
    specSinit (m :: ms) = (if m.init.isSome then m.init.getD 0 else 0) + specSinit ms := by
  unfold specSinit
  rw [List.filter_cons]
  cases hI : m.init <;> simp [hI]

lemma specSfini_cons (m : Meas) (ms : List Meas) :
    specSfini (m :: ms) =
      (if m.init.isSome && m.fini.isSome then m.fini.getD 0 else 0) + specSfini ms := by
  unfold specSfini
  rw [List.filter_cons]
  cases hI : m.init <;> cases hF : m.fini <;> simp [hI, hF]

lemma specSufini_cons (m : Meas) (ms : List Meas) :
    specSufini (m :: ms) =
      (if m.init.isSome && !m.fini.isSome then m.init.getD 0 else 0) + specSufini ms := by
  unfold specSufini
  rw [List.filter_cons]
  cases hI : m.init <;> cases hF : m.fini <;> simp [hI, hF]

lemma srFold (ms : List Meas) : ∀ (a : SRAcc),
    ms.foldl srStep a = ⟨a.t_ + specTplus ms, a.St + specSt ms,
      a.Sinit + specSinit ms, a.Sfini + specSfini ms, a.Sufini + specSufini ms⟩ := by
  induction ms with
  | nil =>
      intro a
      simp [specTplus, specSt, specSinit, specSfini, specSufini]
  | cons m ms ih =>
      intro a
      rw [List.foldl_cons, ih, specTplus_cons, specSt_cons, specSinit_cons,
        specSfini_cons, specSufini_cons]
      cases hI : m.init with
      | none =>
          simp only [srStep, hI, Option.isSome_none, Bool.false_eq_true, if_false,
            Bool.false_and, SRAcc.mk.injEq]
          refine ⟨by ring, by ring, by ring, by ring, by ring⟩
      | some vinit =>
          cases hF : m.fini with
          | none =>
              simp only [srStep, hI, hF, Option.isSome_some, Option.isSome_none,
                Option.getD_some, Bool.true_and, Bool.not_false, Bool.false_eq_true,
                Bool.and_false, if_true, if_false, SRAcc.mk.injEq]
              refine ⟨by ring, by ring, by ring, by ring, by ring⟩
          | some vfini =>
              simp only [srStep, hI, hF, Option.isSome_some, Option.getD_some,
                Bool.true_and, Bool.not_true, Bool.and_true, Bool.and_false,
                Bool.false_eq_true, if_true, if_false, SRAcc.mk.injEq]
              refine ⟨by ring, by ring, by ring, by ring, by ring⟩

/-- C1: for every Calc (any measurement log and any query window
τ_lo ≤ τ_hi), the success-rate helper computes, over the records yielded
by _miter, exactly the interval the claim states: [0,1] when Σinit = 0 or
Σt = 0, else [Σfini/(Σinit+init⁺), (Σfini+init⁺+Σufini)/(Σinit+init⁺)]
with init⁺ = t⁺·Σinit/Σt, where Σt, t⁺, Σinit, Σfini, Σufini are the
filtered sums over the _miter records. -/
theorem c1_success_rate (mlog : List Meas) (t_lo t_hi : ℚ) (h : t_lo ≤ t_hi) :
    success_rate (calcInit mlog t_lo t_hi) =
    specSuccessRate (miter (calcInit mlog t_lo t_hi)) := by
  clear h
  unfold success_rate specSuccessRate
  rw [srFold]
  simp

/-- Witness for C1: one record spanning [10,20) with init=8 and fini=4 and
the query window [10,20) give the interval [0.5, 0.5]. -/
theorem c1_success_rate_witness :
    (10 : ℚ) ≤ 20 ∧
    success_rate (calcInit [⟨10, 10, some 8, some 4⟩] 10 20) = (1/2, 1/2) := by
  refine ⟨by norm_num, ?_⟩
  rw [c1_success_rate [⟨10, 10, some 8, some 4⟩] 10 20 (by norm_num)]
  with_unfolding_all decide

/-! ## C4: Calc windowing and the _miter partition -/

/-- The relation maintained between adjacent records of a MeasurementLog
(kpi.py append: Tstart strictly increasing, no overlap). -/
def mlogR (a b : Meas) : Prop := a.Tstart < b.Tstart ∧ a.Tstart + a.dT ≤ b.Tstart

instance (a b : Meas) : Decidable (mlogR a b) :=
  inferInstanceAs (Decidable (_ < _ ∧ _ ≤ _))

/-- Invariants of a MeasurementLog: non-negative durations (enforced by
Measurement._check_valid) and the adjacency invariants of append. -/
def logOK (mlog : List Meas) : Prop :=
  (∀ m ∈ mlog, 0 ≤ m.dT) ∧ mlog.Chain' mlogR

instance (mlog : List Meas) : Decidable (logOK mlog) :=
  inferInstanceAs (Decidable ((∀ m ∈ mlog, 0 ≤ m.dT) ∧ mlog.Chain' mlogR))

/-- The yielded records form consecutive [Tstart, Tstart+δT) intervals
covering [lo, hi) exactly: each record starts where the previous one ended,
the first starts at lo and the last ends at hi. -/
def covers : ℚ → ℚ → List Meas → Prop
| lo, hi, [] => lo = hi
| lo, hi, m :: rest => m.Tstart = lo ∧ covers (m.Tstart + m.dT) hi rest

lemma covers_nil (lo hi : ℚ) : covers lo hi [] ↔ lo = hi := Iff.rfl

lemma covers_cons (lo hi : ℚ) (m : Meas) (rest : List Meas) :
    covers lo hi (m :: rest) ↔
    (m.Tstart = lo ∧ covers (m.Tstart + m.dT) hi rest) := Iff.rfl

lemma chain_head_le_lastEnd : ∀ (d : List Meas) (m0 ml : Meas),
    (∀ m ∈ d, 0 ≤ m.dT) → d.Chain' mlogR →
    d.head? = some m0 → d.getLast? = some ml →
    m0.Tstart ≤ ml.Tstart + ml.dT := by
  intro d
  induction d with
  | nil => intro m0 ml _ _ h; cases h
  | cons a rest ih =>
      intro m0 ml hdT hch hh hl
      have ha : m0 = a := by
        rw [List.head?_cons, Option.some_inj] at hh
        exact hh.symm
      subst ha
      cases rest with
      | nil =>
          rw [List.getLast?_singleton, Option.some_inj] at hl
          rw [← hl]
          have h0 := hdT m0 (List.mem_cons_self _ _)
          linarith
      | cons b rs =>
          rw [List.getLast?_cons_cons] at hl
          rw [List.chain'_cons] at hch
          have h1 : m0.Tstart + m0.dT ≤ b.Tstart := hch.1.2
          have h0 : 0 ≤ m0.dT := hdT m0 (List.mem_cons_self _ _)
          have h2 : b.Tstart ≤ ml.Tstart + ml.dT := by
            refine ih b ml ?_ hch.2 rfl hl
            intro m hm
            exact hdT m (List.mem_cons_of_mem _ hm)
          linarith

lemma miterGo_covers (z : ℚ) : ∀ (data : List Meas) (t : ℚ),
    (∀ m ∈ data, 0 ≤ m.dT) →
    data.Chain' mlogR →
    (∀ m0, data.head? = some m0 → t ≤ m0.Tstart) →
    (∀ ml, data.getLast? = some ml → ml.Tstart + ml.dT ≤ z) →
    t ≤ z →
    covers t z (miterGo z t data) := by
  intro data
  induction data with
  | nil =>
      intro t _ _ _ _ htz
      by_cases hlt : t < z
      · simp only [miterGo, if_pos hlt]
        rw [covers_cons, covers_nil]
        refine ⟨rfl, ?_⟩
        show t + (z - t) = z
        ring
      · simp only [miterGo, if_neg hlt]
        rw [covers_nil]
        linarith
  | cons m rest ih =>
      intro t hdT hch hhead hlast htz
      have h0 : 0 ≤ m.dT := hdT m (List.mem_cons_self _ _)
      have hdT2 : ∀ x ∈ rest, 0 ≤ x.dT := fun x hx => hdT x (List.mem_cons_of_mem _ hx)
      have hch2 : rest.Chain' mlogR := hch.tail
      have hnext : covers (m.Tstart + m.dT) z (miterGo z (m.Tstart + m.dT) rest) := by
        cases rest with
        | nil =>
            have hmz : m.Tstart + m.dT ≤ z := hlast m (by simp)
            exact ih (m.Tstart + m.dT) hdT2 hch2 (by intro x hx; cases hx)
              (by intro x hx; cases hx) hmz
        | cons b rs =>
            rw [List.chain'_cons] at hch
            have hmb : m.Tstart + m.dT ≤ b.Tstart := hch.1.2
            have hlast2 : ∀ ml, (b :: rs).getLast? = some ml →
                ml.Tstart + ml.dT ≤ z := by
              intro ml hml
              exact hlast ml (by rw [List.getLast?_cons_cons]; exact hml)
            have hgl : ∃ ml, (b :: rs).getLast? = some ml := by
              cases hg : (b :: rs).getLast? with
              | none => exact absurd hg (by simp)
              | some ml => exact ⟨ml, rfl⟩
            obtain ⟨ml, hml⟩ := hgl
            have hbz : b.Tstart ≤ ml.Tstart + ml.dT :=
              chain_head_le_lastEnd (b :: rs) b ml hdT2 hch.2 rfl hml
            have hmlz : ml.Tstart + ml.dT ≤ z := hlast2 ml hml
            refine ih (m.Tstart + m.dT) hdT2 hch.2 ?_ hlast2 (by linarith)
            intro m0 hm0
            rw [List.head?_cons, Option.some_inj] at hm0
            subst hm0
            exact hmb
      have hstep : covers m.Tstart z (m :: miterGo z (m.Tstart + m.dT) rest) :=
        (covers_cons _ _ _ _).2 ⟨rfl, hnext⟩
      have hthead : t ≤ m.Tstart := hhead m rfl
      by_cases hlt : t < m.Tstart
      · simp only [miterGo, if_pos hlt, List.cons_append, List.nil_append]
        rw [covers_cons]
        refine ⟨rfl, ?_⟩
        have harith : (hole t (m.Tstart - t)).Tstart + (hole t (m.Tstart - t)).dT =
            m.Tstart := by
          show t + (m.Tstart - t) = m.Tstart
          ring
        rw [harith]
        exact hstep
      · have hteq : m.Tstart = t := le_antisymm (not_lt.1 hlt) hthead
        simp only [miterGo, if_neg hlt, List.nil_append]
        rw [← hteq]
        exact hstep

lemma miterGo_mem (z : ℚ) : ∀ (data : List Meas) (t : ℚ),
    ∀ x ∈ miterGo z t data, x ∈ data ∨ (x.init = none ∧ x.fini = none) := by
  intro data
  induction data with
  | nil =>
      intro t x hx
      simp only [miterGo] at hx
      by_cases hlt : t < z
      · rw [if_pos hlt, List.mem_singleton] at hx
        subst hx
        exact Or.inr ⟨rfl, rfl⟩
      · rw [if_neg hlt] at hx
        cases hx
  | cons m rest ih =>
      intro t x hx
      simp only [miterGo, List.mem_append, List.mem_cons] at hx
      rcases hx with hx | hx | hx
      · by_cases hlt : t < m.Tstart
        · rw [if_pos hlt, List.mem_singleton] at hx
          subst hx
          exact Or.inr ⟨rfl, rfl⟩
        · rw [if_neg hlt] at hx
          cases hx
      · subst hx
        exact Or.inl (List.mem_cons_self _ _)
      · rcases ih (m.Tstart + m.dT) x hx with h | h
        · exact Or.inl (List.mem_cons_of_mem _ h)
        · exact Or.inr h

lemma calcInit_of_slice_nil (mlog : List Meas) (t_lo t_hi : ℚ)
    (h : calcSlice mlog t_lo t_hi = []) :
    calcInit mlog t_lo t_hi = ⟨[], t_lo, t_hi⟩ := by
  unfold calcInit
  rw [h]
  rfl

lemma calcInit_of_slice_cons (mlog : List Meas) (t_lo t_hi : ℚ) (x : Meas)
    (xs : List Meas) (h : calcSlice mlog t_lo t_hi = x :: xs) :
    calcInit mlog t_lo t_hi =
      ⟨x :: xs, min t_lo x.Tstart,
       max t_hi (((x :: xs).getLast (by simp)).Tstart +
                 ((x :: xs).getLast (by simp)).dT)⟩ := by
  unfold calcInit
  rw [h]
  rw [List.getLast?_eq_getLast (x :: xs) (by simp)]
  rfl

lemma calcSlice_within (mlog : List Meas) (t_lo t_hi : ℚ) :
    calcSlice mlog t_lo t_hi <:+: mlog :=
  (List.takeWhile_prefix _).isInfix.trans (List.dropWhile_suffix _).isInfix

/-- When every record has a strictly positive duration and the data ends
within [_, z], the assertions of _miter never fire: the full iteration
succeeds and yields exactly the assertion-free walk. -/
lemma miterGoM_eq (z : ℚ) : ∀ (data : List Meas) (t : ℚ),
    (∀ m ∈ data, 0 < m.dT) →
    data.Chain' mlogR →
    (∀ ml, data.getLast? = some ml → ml.Tstart + ml.dT ≤ z) →
    t ≤ z →
    miterGoM z t data = some (miterGo z t data) := by
  intro data
  induction data with
  | nil =>
      intro t _ _ _ htz
      simp only [miterGoM, miterGo, if_pos htz]
  | cons m rest ih =>
      intro t hdT hch hlast htz
      have h0 : 0 < m.dT := hdT m (List.mem_cons_self _ _)
      have hassert : m.Tstart < m.Tstart + m.dT := by linarith
      have hdT2 : ∀ x ∈ rest, 0 < x.dT := fun x hx => hdT x (List.mem_cons_of_mem _ hx)
      have hch2 : rest.Chain' mlogR := hch.tail
      have hmz : m.Tstart + m.dT ≤ z := by
        cases rest with
        | nil => exact hlast m (by simp)
        | cons b rs =>
            rw [List.chain'_cons] at hch
            have hmb : m.Tstart + m.dT ≤ b.Tstart := hch.1.2
            obtain ⟨ml, hml⟩ : ∃ ml, (b :: rs).getLast? = some ml := by
              cases hg : (b :: rs).getLast? with
              | none => exact absurd hg (by simp)
              | some ml => exact ⟨ml, rfl⟩
            have hbz : b.Tstart ≤ ml.Tstart + ml.dT :=
              chain_head_le_lastEnd (b :: rs) b ml
                (fun x hx => le_of_lt (hdT2 x hx)) hch.2 rfl hml
            have hmlz : ml.Tstart + ml.dT ≤ z :=
              hlast ml (by rw [List.getLast?_cons_cons]; exact hml)
            linarith
      have hlast2 : ∀ ml, rest.getLast? = some ml → ml.Tstart + ml.dT ≤ z := by
        cases rest with
        | nil =>
            intro ml hml
            exact absurd hml (by simp)
        | cons b rs =>
            intro ml hml
            exact hlast ml (by rw [List.getLast?_cons_cons]; exact hml)
      have hrec := ih (m.Tstart + m.dT) hdT2 hch2 hlast2 hmz
      simp only [miterGoM, miterGo, if_pos hassert, hrec]

/-- C4 (amended): for every measurement log satisfying the append
invariants whose records all have strictly positive duration, and every
τ_lo ≤ τ_hi, the constructed Calc has calc.τ_lo ≤ τ_lo and
calc.τ_hi ≥ τ_hi, the complete _miter iteration succeeds (no assertion
fires), and it yields consecutive [Tstart, Tstart+δT) intervals exactly
covering [calc.τ_lo, calc.τ_hi) with no gaps and no overlaps, each yielded
record being either a log record or a synthesized NA-only hole.  (For a
valid log holding a δT = 0 record — which append admits — _miter instead
raises AssertionError mid-iteration: see the counterexample.) -/
theorem c4_calc_windowing (mlog : List Meas) (t_lo t_hi : ℚ)
    (hok : logOK mlog) (hpos : ∀ m ∈ mlog, 0 < m.dT) (hlh : t_lo ≤ t_hi) :
    (calcInit mlog t_lo t_hi).t_lo ≤ t_lo ∧
    t_hi ≤ (calcInit mlog t_lo t_hi).t_hi ∧
    miterM (calcInit mlog t_lo t_hi) = some (miter (calcInit mlog t_lo t_hi)) ∧
    covers (calcInit mlog t_lo t_hi).t_lo (calcInit mlog t_lo t_hi).t_hi
      (miter (calcInit mlog t_lo t_hi)) ∧
    (∀ x ∈ miter (calcInit mlog t_lo t_hi),
        x ∈ (calcInit mlog t_lo t_hi).data ∨ (x.init = none ∧ x.fini = none)) := by
  have hinf := calcSlice_within mlog t_lo t_hi
  have hdT : ∀ m ∈ calcSlice mlog t_lo t_hi, 0 ≤ m.dT :=
    fun m hm => hok.1 m (hinf.sublist.subset hm)
  have hpos2 : ∀ m ∈ calcSlice mlog t_lo t_hi, 0 < m.dT :=
    fun m hm => hpos m (hinf.sublist.subset hm)
  have hch : (calcSlice mlog t_lo t_hi).Chain' mlogR := List.Chain'.infix hok.2 hinf
  cases hs : calcSlice mlog t_lo t_hi with
  | nil =>
      rw [calcInit_of_slice_nil mlog t_lo t_hi hs]
      refine ⟨le_refl _, le_refl _, ?_, ?_, ?_⟩
      · unfold miterM miter
        exact miterGoM_eq t_hi [] t_lo (by intro m hm; cases hm)
          List.chain'_nil (by intro x hx; exact absurd hx (by simp)) hlh
      · unfold miter
        exact miterGo_covers t_hi [] t_lo (by intro m hm; cases hm)
          List.chain'_nil (by intro x hx; cases hx) (by intro x hx; cases hx) hlh
      · unfold miter
        exact miterGo_mem t_hi [] t_lo
  | cons x xs =>
      rw [hs] at hdT hpos2 hch
      rw [calcInit_of_slice_cons mlog t_lo t_hi x xs hs]
      set ml := (x :: xs).getLast (by simp) with hml
      have hgl : (x :: xs).getLast? = some ml := List.getLast?_eq_getLast _ _
      have hxml : x.Tstart ≤ ml.Tstart + ml.dT :=
        chain_head_le_lastEnd (x :: xs) x ml hdT hch rfl hgl
      have hlastz : ∀ l, (x :: xs).getLast? = some l →
          l.Tstart + l.dT ≤ max t_hi (ml.Tstart + ml.dT) := by
        intro l hl
        rw [hgl, Option.some_inj] at hl
        subst hl
        exact le_max_right _ _
      have htz : min t_lo x.Tstart ≤ max t_hi (ml.Tstart + ml.dT) := by
        calc min t_lo x.Tstart ≤ x.Tstart := min_le_right _ _
          _ ≤ ml.Tstart + ml.dT := hxml
          _ ≤ max t_hi (ml.Tstart + ml.dT) := le_max_right _ _
      refine ⟨min_le_left _ _, le_max_left _ _, ?_, ?_, ?_⟩
      · unfold miterM miter
        exact miterGoM_eq _ (x :: xs) _ hpos2 hch hlastz htz
      · unfold miter
        refine miterGo_covers _ (x :: xs) _ hdT hch ?_ hlastz htz
        intro m0 hm0
        rw [List.head?_cons, Option.some_inj] at hm0
        subst hm0
        exact min_le_right _ _
      · unfold miter
        exact miterGo_mem _ (x :: xs) _

/-- A single-record log with δT = 0: accepted by MeasurementLog.append
(only NA and negative values are rejected), so it is a valid log. -/
def c4log0 : List Meas := [⟨1, 0, none, none⟩]

/-- C4 counterexample to the claim as stated: on a valid log holding a
δT = 0 record, Calc._miter raises AssertionError (assert m_τlo < m_τhi)
instead of yielding the claimed partition of [calc.τ_lo, calc.τ_hi). -/
theorem c4_zero_dT_counterexample :
    logOK c4log0 ∧ (0 : ℚ) ≤ 5 ∧ miterM (calcInit c4log0 0 5) = none := by
  refine ⟨⟨?_, List.chain'_singleton _⟩, by norm_num, ?_⟩
  · intro m hm
    simp only [c4log0, List.mem_singleton] at hm
    rw [hm]
  · with_unfolding_all rfl

/-- Witness for C4: a log of two records [1,2) and [3,4) queried with the
window [0,5) — the hypotheses hold and the theorem applies. -/
theorem c4_calc_windowing_witness :
    logOK [⟨1, 1, none, none⟩, ⟨3, 1, some 2, some 1⟩] ∧
    (∀ m ∈ [(⟨1, 1, none, none⟩ : Meas), ⟨3, 1, some 2, some 1⟩], 0 < m.dT) ∧
    (0 : ℚ) ≤ 5 ∧
    ((calcInit [⟨1, 1, none, none⟩, ⟨3, 1, some 2, some 1⟩] 0 5).t_lo ≤ 0 ∧
     (5 : ℚ) ≤ (calcInit [⟨1, 1, none, none⟩, ⟨3, 1, some 2, some 1⟩] 0 5).t_hi ∧
     miterM (calcInit [⟨1, 1, none, none⟩, ⟨3, 1, some 2, some 1⟩] 0 5)
       = some (miter (calcInit [⟨1, 1, none, none⟩, ⟨3, 1, some 2, some 1⟩] 0 5)) ∧
     covers (calcInit [⟨1, 1, none, none⟩, ⟨3, 1, some 2, some 1⟩] 0 5).t_lo
       (calcInit [⟨1, 1, none, none⟩, ⟨3, 1, some 2, some 1⟩] 0 5).t_hi
       (miter (calcInit [⟨1, 1, none, none⟩, ⟨3, 1, some 2, some 1⟩] 0 5)) ∧
     (∀ x ∈ miter (calcInit [⟨1, 1, none, none⟩, ⟨3, 1, some 2, some 1⟩] 0 5),
         x ∈ (calcInit [⟨1, 1, none, none⟩, ⟨3, 1, some 2, some 1⟩] 0 5).data ∨
         (x.init = none ∧ x.fini = none))) := by
  have hok0 : logOK [⟨1, 1, none, none⟩, ⟨3, 1, some 2, some 1⟩] := by
    constructor
    · intro m hm
      rcases List.mem_cons.1 hm with h1 | hm
      · rw [h1]; norm_num
      · rcases List.mem_singleton.1 hm with h2
        rw [h2]; norm_num
    · rw [List.chain'_cons]
      exact ⟨⟨by norm_num, by norm_num⟩, List.chain'_singleton _⟩
  have hpos0 : ∀ m ∈ [(⟨1, 1, none, none⟩ : Meas), ⟨3, 1, some 2, some 1⟩], 0 < m.dT := by
    intro m hm
    rcases List.mem_cons.1 hm with h1 | hm
    · rw [h1]; norm_num
    · rcases List.mem_singleton.1 hm with h2
      rw [h2]; norm_num
  exact ⟨hok0, hpos0, by norm_num,
    c4_calc_windowing [⟨1, 1, none, none⟩, ⟨3, 1, some 2, some 1⟩] 0 5
      hok0 hpos0 (by norm_num)⟩

/-! ## MeasurementLog.append and Measurement._check_valid  (kpi.py)

For the append-validation claim a Measurement is modelled as the list of
its scalar fields (the expanded dtype: X.Tstart, X.δT, counters, .sum and
per-QCI aliases), each field a (name, value) pair with none = NA.  Field
names are character lists so that the two string operations used by
_check_valid (the "Succ" in field test and field.replace("Succ", "Att"))
are executable by structural recursion.
-/

/-- Field name: a list of characters. -/
abbrev FName := List Char

/-- A Measurement as seen by _check_valid: its scalar fields in order. -/
abbrev MeasR := List (FName × Option ℚ)

/-- Does s start with pat? -/
def startsWith : (s pat : List Char) → Bool
| _, [] => true
| [], _ :: _ => false
| c :: s, p :: ps => c == p && startsWith s ps

/-- Python `pat in s` (substring containment). -/
def hasSubstr (pat : List Char) : List Char → Bool
| [] => startsWith [] pat
| c :: s => startsWith (c :: s) pat || hasSubstr pat s

/-- Helper of replaceSub with explicit fuel (the fuel only makes the
recursion structural; fuel = length of the string is always enough). -/
def replaceSubGo (pat rep : List Char) : ℕ → List Char → List Char
| _, [] => []
| 0, s => s
| n + 1, c :: s =>
    if pat ≠ [] ∧ startsWith (c :: s) pat then
      rep ++ replaceSubGo pat rep n (s.drop (pat.length - 1))
    else c :: replaceSubGo pat rep n s

/-- Python s.replace(pat, rep): replace all non-overlapping occurrences of
pat in s by rep, left to right. -/
def replaceSub (pat rep s : List Char) : List Char := replaceSubGo pat rep s.length s

/-- m[f]: value of field f, with a missing field reading as NA. -/
def mval (m : MeasR) (f : FName) : Option ℚ :=
  ((m.find? (fun p => p.1 == f)).map Prod.snd).getD none

/-- Name fragments and field names used by _check_valid and append. -/
def succPat : FName := "Succ".toList

def attPat : FName := "Att".toList

def fTstart : FName := "X.Tstart".toList

def fdT : FName := "X.δT".toList

/-- The problems _check_valid records for a single non-NA field value:
a negative value, and for fields containing "Succ", a value exceeding the
non-NA value of the corresponding "Att" field (fini > init). -/
def fieldBad (m : MeasR) (f : FName) (v : Option ℚ) : List String :=
  match v with
  | none => []
  | some x =>
      (if x < 0 then ["negative value"] else []) ++
      (if hasSubstr succPat f then
         match mval m (replaceSub succPat attPat f) with
         | some vinit => if ¬ x ≤ vinit then ["fini > init"] else []
         | none => []
       else [])

/-- Measurement._check_valid translated from kpi.py: collect the problems
(NA X.Tstart or X.δT, negative values, Succ exceeding Att); the
measurement is valid when the list is empty (no AssertionError raised). -/
def check_valid (m : MeasR) : List String :=
  (if mval m fTstart = none then ["X.Tstart = NA"] else []) ++
  ((if mval m fdT = none then ["X.δT = NA"] else []) ++
   (m.map (fun p => fieldBad m p.1 p.2)).flatten)

/-- numpy < on possibly-NaN scalars: any comparison with NaN is false. -/
def olt (a b : Option ℚ) : Bool :=
  match a, b with
  | some x, some y => decide (x < y)
  | _, _ => false

/-- numpy ≤ on possibly-NaN scalars: any comparison with NaN is false. -/
def ole (a b : Option ℚ) : Bool :=
  match a, b with
  | some x, some y => decide (x ≤ y)
  | _, _ => false

/-- Addition propagating NaN. -/
def oadd (a b : Option ℚ) : Option ℚ :=
  match a, b with
  | some x, some y => some (x + y)
  | _, _ => none

/-- MeasurementLog.append translated from kpi.py: validate m, then check
Tstart strictly above the previous record's Tstart and at or above its
end; on success the measurement goes to the tail. -/
def appendM (log : List MeasR) (m : MeasR) : Except String (List MeasR) :=
  if check_valid m ≠ [] then Except.error "invalid Measurement data"
  else
    match log.getLast? with
    | none => Except.ok (log ++ [m])
    | some m_ =>
        if ¬ olt (mval m_ fTstart) (mval m fTstart) then
          Except.error "Tstart not increasing"
        else if ¬ ole (oadd (mval m_ fTstart) (mval m_ fdT)) (mval m fTstart) then
          Except.error "Tstart overlaps with previous measurement"
        else Except.ok (log ++ [m])

/-- The data-validity rejection conditions as the claim states them. -/
def measInvalidSpec (m : MeasR) : Prop :=
  mval m fTstart = none ∨ mval m fdT = none ∨
  (∃ p ∈ m, ∃ x, p.2 = some x ∧ x < 0) ∨
  (∃ p ∈ m, ∃ x vinit, p.2 = some x ∧ hasSubstr succPat p.1 = true ∧
      mval m (replaceSub succPat attPat p.1) = some vinit ∧ vinit < x)

/-- The full rejection condition of append, as amended: invalid data, or,
against the previous record, Tstart ≤ previous.Tstart or
Tstart < previous.Tstart + previous.δT. -/
def appendRejectSpec (log : List MeasR) (m : MeasR) : Prop :=
  measInvalidSpec m ∨
  (∃ m_ t t_ d_, log.getLast? = some m_ ∧
      mval m fTstart = some t ∧ mval m_ fTstart = some t_ ∧ mval m_ fdT = some d_ ∧
      (t ≤ t_ ∨ t < t_ + d_))

lemma fieldBad_eq_nil_iff (m : MeasR) (f : FName) (v : Option ℚ) :
    fieldBad m f v = [] ↔
      (∀ x, v = some x → ¬ x < 0) ∧
      (∀ x, v = some x → hasSubstr succPat f = true →
         ∀ vinit, mval m (replaceSub succPat attPat f) = some vinit → x ≤ vinit) := by
  cases v with
  | none => simp [fieldBad]
  | some x =>
      simp only [fieldBad, List.append_eq_nil]
      constructor
      · rintro ⟨h1, h2⟩
        constructor
        · intro y hy
          cases hy
          intro hneg
          rw [if_pos hneg] at h1
          cases h1
        · intro y hy hS vinit hA
          cases hy
          rw [if_pos hS, hA] at h2
          by_contra hlt
          simp [hlt] at h2
      · rintro ⟨h1, h2⟩
        have hx1 : ¬ x < 0 := h1 x rfl
        rw [if_neg hx1]
        refine ⟨rfl, ?_⟩
        by_cases hS : hasSubstr succPat f = true
        · rw [if_pos hS]
          cases hA : mval m (replaceSub succPat attPat f) with
          | none => rfl
          | some vinit =>
              have hle := h2 x rfl hS vinit hA
              simp [hle]
        · rw [if_neg hS]

lemma check_valid_eq_nil_iff (m : MeasR) :
    check_valid m = [] ↔ ¬ measInvalidSpec m := by
  unfold check_valid measInvalidSpec
  rw [List.append_eq_nil, List.append_eq_nil, List.flatten_eq_nil_iff]
  constructor
  · rintro ⟨h1, h2, h3⟩ hbad
    rcases hbad with hT | hd | ⟨p, hp, x, hx, hneg⟩ | ⟨p, hp, x, vinit, hx, hS, hA, hlt⟩
    · rw [if_pos hT] at h1; cases h1
    · rw [if_pos hd] at h2; cases h2
    · have hb := h3 (fieldBad m p.1 p.2) (List.mem_map_of_mem _ hp)
      rw [fieldBad_eq_nil_iff] at hb
      exact hb.1 x hx hneg
    · have hb := h3 (fieldBad m p.1 p.2) (List.mem_map_of_mem _ hp)
      rw [fieldBad_eq_nil_iff] at hb
      exact absurd hlt (not_lt.2 (hb.2 x hx hS vinit hA))
  · intro hn
    refine ⟨?_, ?_, ?_⟩
    · rw [if_neg (fun hT => hn (Or.inl hT))]
    · rw [if_neg (fun hd => hn (Or.inr (Or.inl hd)))]
    · intro l hl
      rw [List.mem_map] at hl
      obtain ⟨p, hp, rfl⟩ := hl
      rw [fieldBad_eq_nil_iff]
      refine ⟨?_, ?_⟩
      · intro x hx hx0
        exact hn (Or.inr (Or.inr (Or.inl ⟨p, hp, x, hx, hx0⟩)))
      · intro x hx hS vinit hA
        by_contra hle
        exact hn (Or.inr (Or.inr (Or.inr
          ⟨p, hp, x, vinit, hx, hS, hA, not_le.1 hle⟩)))

lemma check_valid_Tstart (m : MeasR) (h : check_valid m = []) :
    ∃ t, mval m fTstart = some t := by
  unfold check_valid at h
  rw [List.append_eq_nil] at h
  cases ht : mval m fTstart with
  | none => rw [if_pos ht] at h; cases h.1
  | some t => exact ⟨t, rfl⟩

lemma check_valid_dT (m : MeasR) (h : check_valid m = []) :
    ∃ d, mval m fdT = some d := by
  unfold check_valid at h
  rw [List.append_eq_nil, List.append_eq_nil] at h
  cases hd : mval m fdT with
  | none => rw [if_pos hd] at h; cases h.2.1
  | some d => exact ⟨d, rfl⟩

/-- C5 (amended): append raises, leaving the log unchanged, exactly when
the measurement has NA X.Tstart or X.δT, some non-NA negative value, some
…Succ field exceeding its non-NA …Att counterpart, or — against the
previous record — Tstart ≤ previous.Tstart or
Tstart < previous.Tstart + previous.δT; otherwise the measurement is
appended at the tail.  (The previous record is assumed valid, as append
itself guarantees for records it admitted.) -/
lemma appendM_last_none (log : List MeasR) (m : MeasR) (hv : check_valid m = [])
    (hlast : log.getLast? = none) : appendM log m = Except.ok (log ++ [m]) := by
  unfold appendM
  rw [if_neg (not_not_intro hv), hlast]

lemma appendM_last_some (log : List MeasR) (m m_ : MeasR) (hv : check_valid m = [])
    (hlast : log.getLast? = some m_) :
    appendM log m =
      (if ¬ olt (mval m_ fTstart) (mval m fTstart) then
        Except.error "Tstart not increasing"
      else if ¬ ole (oadd (mval m_ fTstart) (mval m_ fdT)) (mval m fTstart) then
        Except.error "Tstart overlaps with previous measurement"
      else Except.ok (log ++ [m])) := by
  unfold appendM
  rw [if_neg (not_not_intro hv), hlast]

theorem c5_append_validation (log : List MeasR) (m : MeasR)
    (hprev : ∀ p, log.getLast? = some p → check_valid p = []) :
    ((∃ e, appendM log m = Except.error e) ↔ appendRejectSpec log m) ∧
    (¬ appendRejectSpec log m → appendM log m = Except.ok (log ++ [m])) := by
  by_cases hv : check_valid m = []
  · have hnotinv : ¬ measInvalidSpec m := (check_valid_eq_nil_iff m).1 hv
    cases hlast : log.getLast? with
    | none =>
        have hstep := appendM_last_none log m hv hlast
        have hns : ¬ appendRejectSpec log m := by
          rintro (h | ⟨m_, t, t_, d_, hl, _⟩)
          · exact hnotinv h
          · rw [hlast] at hl; cases hl
        refine ⟨⟨?_, fun h => absurd h hns⟩, fun _ => hstep⟩
        intro ⟨e, he⟩
        rw [hstep] at he
        cases he
    | some m_ =>
        have hstep := appendM_last_some log m m_ hv hlast
        obtain ⟨t, ht⟩ := check_valid_Tstart m hv
        obtain ⟨t_, ht_⟩ := check_valid_Tstart m_ (hprev m_ hlast)
        obtain ⟨d_, hd_⟩ := check_valid_dT m_ (hprev m_ hlast)
        rw [ht, ht_, hd_] at hstep
        by_cases h1 : t_ < t
        · by_cases h2 : t_ + d_ ≤ t
          · have hok : appendM log m = Except.ok (log ++ [m]) := by
              rw [hstep]
              rw [if_neg (not_not_intro (by simp [olt, h1]))]
              rw [if_neg (not_not_intro (by simp [ole, oadd, h2]))]
            have hns : ¬ appendRejectSpec log m := by
              rintro (h | ⟨m2, u, u_, e_, hl, hu, hu_, he_, hcase⟩)
              · exact hnotinv h
              · rw [hlast, Option.some_inj] at hl
                subst hl
                rw [ht, Option.some_inj] at hu
                rw [ht_, Option.some_inj] at hu_
                rw [hd_, Option.some_inj] at he_
                subst hu; subst hu_; subst he_
                rcases hcase with h | h
                · exact absurd h1 (not_lt.2 h)
                · exact absurd h (not_lt.2 h2)
            refine ⟨⟨?_, fun h => absurd h hns⟩, fun _ => hok⟩
            intro ⟨e, he⟩
            rw [hok] at he
            cases he
          · have herr : appendM log m =
                Except.error "Tstart overlaps with previous measurement" := by
              rw [hstep]
              rw [if_neg (not_not_intro (by simp [olt, h1]))]
              rw [if_pos (by simp [ole, oadd]; exact not_le.1 h2)]
            have hsp : appendRejectSpec log m :=
              Or.inr ⟨m_, t, t_, d_, hlast, ht, ht_, hd_, Or.inr (not_le.1 h2)⟩
            exact ⟨⟨fun _ => hsp, fun _ => ⟨_, herr⟩⟩, fun h => absurd hsp h⟩
        · have herr : appendM log m = Except.error "Tstart not increasing" := by
            rw [hstep]
            rw [if_pos (by simp [olt]; exact not_lt.1 h1)]
          have hsp : appendRejectSpec log m :=
            Or.inr ⟨m_, t, t_, d_, hlast, ht, ht_, hd_, Or.inl (not_lt.1 h1)⟩
          exact ⟨⟨fun _ => hsp, fun _ => ⟨_, herr⟩⟩, fun h => absurd hsp h⟩
  · have hinv : measInvalidSpec m := by
      by_contra hc
      exact hv ((check_valid_eq_nil_iff m).2 hc)
    have herr : appendM log m = Except.error "invalid Measurement data" := by
      unfold appendM
      rw [if_pos hv]
    have hsp : appendRejectSpec log m := Or.inl hinv
    exact ⟨⟨fun _ => hsp, fun _ => ⟨_, herr⟩⟩, fun h => absurd hsp h⟩

/-- Concrete log and measurements for the C5 counterexample and witness. -/
def c5log0 : List MeasR := [[(fTstart, some 1), (fdT, some 1)]]

def c5m0 : MeasR := [(fTstart, some 2), (fdT, some 1)]

def c5m1 : MeasR := [(fTstart, some 1), (fdT, some 1)]

/-- C5 counterexample to the claim as stated: appending a record with
Tstart equal to previous.Tstart + previous.δT (2 = 1 + 1) succeeds, while
the claim says append raises whenever Tstart ≤ previous.Tstart +
previous.δT. -/
theorem c5_append_boundary_counterexample :
    appendM c5log0 c5m0 = Except.ok (c5log0 ++ [c5m0]) ∧ (2 : ℚ) ≤ 1 + 1 := by
  constructor
  · with_unfolding_all rfl
  · norm_num

/-- Witness for C5: the validity hypothesis on the previous record holds
for the concrete one-record log, and appending a record starting at the
previous record's own Tstart is rejected. -/
theorem c5_append_validation_witness :
    (∀ p, c5log0.getLast? = some p → check_valid p = []) ∧
    (((∃ e, appendM c5log0 c5m1 = Except.error e) ↔ appendRejectSpec c5log0 c5m1) ∧
     (¬ appendRejectSpec c5log0 c5m1 →
        appendM c5log0 c5m1 = Except.ok (c5log0 ++ [c5m1]))) := by
  have hp : ∀ p, c5log0.getLast? = some p → check_valid p = [] := by
    intro p hp
    have : p = [(fTstart, some 1), (fdT, some 1)] := by
      rw [show c5log0.getLast? = some [(fTstart, some 1), (fdT, some 1)] from rfl,
        Option.some_inj] at hp
      exact hp.symm
    rw [this]
    with_unfolding_all rfl
  exact ⟨hp, c5_append_validation c5log0 c5m1 hp⟩

/-! ## xlog spec-list validation  (amari/xlog.py)

xlog() normalizes the given LogSpec list (ensure one meta.sync spec — the
last given one, or a new one with 10x the longest period — and a
config_get spec right after it with the sync period) and then rejects the
list when ns = Σ lsync.period/l.period over the normalized list exceeds
LOS_window.
-/

/-- LogSpec restricted to what the validation uses: query name and period. -/
structure LogSpecM where
  query : String
  period : ℚ
deriving DecidableEq

/-- pmax of xlog(): the longest period, at least 1. -/
def pmaxOf (v : List LogSpecM) : ℚ := v.foldl (fun acc l => max acc l.period) 1

/-- The last meta.sync spec of the list together with its index (the
xlog() loop keeps overwriting isync/lsync, so the last match wins). -/
def lastSyncOf : List LogSpecM → Option (ℕ × LogSpecM)
| [] => none
| l :: rest =>
    match lastSyncOf rest with
    | some (i, ls) => some (i + 1, ls)
    | none => if l.query == "meta.sync" then some (0, l) else none

/-- Is a config_get spec present? -/
def hasConfigGet (v : List LogSpecM) : Bool := v.any (fun l => l.query == "config_get")

/-- The normalization of xlog(): ensure meta.sync (inserted first with
period 10·pmax when absent) and config_get (inserted right after the sync
spec, with the sync period, when absent).  Returns the normalized list and
the sync spec. -/
def normalizeSpecs (v : List LogSpecM) : List LogSpecM × LogSpecM :=
  match lastSyncOf v with
  | some (isync, lsync) =>
      (if hasConfigGet v then v
       else v.insertIdx (isync + 1) ⟨"config_get", lsync.period⟩, lsync)
  | none =>
      let lsync : LogSpecM := ⟨"meta.sync", pmaxOf v * 10⟩
      let v1 := lsync :: v
      (if hasConfigGet v then v1
       else v1.insertIdx 1 ⟨"config_get", lsync.period⟩, lsync)

/-- ns of xlog(): expected number of entries within one sync period,
summed over the whole normalized list (the sync spec itself included). -/
def nsOf (lsync : LogSpecM) (v : List LogSpecM) : ℚ :=
  (v.map (fun l => lsync.period / l.period)).sum

/-- The validation of xlog(): raise ValueError when ns > LOS_window. -/
def xlogValidate (v : List LogSpecM) : Except String (List LogSpecM) :=
  if nsOf (normalizeSpecs v).2 (normalizeSpecs v).1 > (LOS_window : ℚ) then
    Except.error "meta.sync asked to come too rarely"
  else Except.ok (normalizeSpecs v).1

/-- The quantity of the claim: expected number of non-sync entries within
one sync period, computed from the normalized spec list. -/
def specNonSyncNs (lsync : LogSpecM) (v : List LogSpecM) : ℚ :=
  ((v.filter (fun l => !(l.query == "meta.sync"))).map
    (fun l => lsync.period / l.period)).sum

lemma nsOf_filter_split (ls : LogSpecM) (v : List LogSpecM) :
    nsOf ls v = ((v.filter (fun l => l.query == "meta.sync")).map
      (fun l => ls.period / l.period)).sum + specNonSyncNs ls v := by
  induction v with
  | nil => simp [nsOf, specNonSyncNs]
  | cons l rest ih =>
      simp only [nsOf, specNonSyncNs] at ih ⊢
      cases hq : (l.query == "meta.sync") with
      | true =>
          simp [List.filter_cons, hq]
          linarith [ih]
      | false =>
          simp [List.filter_cons, hq]
          linarith [ih]

lemma insertIdx_perm {α : Type} (x : α) : ∀ (i : ℕ) (v : List α), i ≤ v.length →
    List.Perm (v.insertIdx i x) (x :: v) := by
  intro i
  induction i with
  | zero => intro v _; rw [List.insertIdx_zero]
  | succ i ih =>
      intro v hv
      cases v with
      | nil => simp at hv
      | cons a as =>
          rw [List.insertIdx_succ_cons]
          exact ((ih as (by simpa using hv)).cons a).trans (List.Perm.swap x a as)

lemma lastSyncOf_none (v : List LogSpecM) (h : lastSyncOf v = none) :
    ∀ l ∈ v, (l.query == "meta.sync") = false := by
  induction v with
  | nil => intro l hl; cases hl
  | cons a rest ih =>
      intro l hl
      unfold lastSyncOf at h
      cases hrest : lastSyncOf rest with
      | some p => rw [hrest] at h; rcases p with ⟨i, ls⟩; cases h
      | none =>
          rw [hrest] at h
          rcases List.mem_cons.1 hl with h1 | h1
          · subst h1
            by_cases hq : (l.query == "meta.sync") = true
            · rw [if_pos hq] at h; cases h
            · simpa using hq
          · exact ih hrest l h1

lemma lastSyncOf_some (v : List LogSpecM) (i : ℕ) (ls : LogSpecM)
    (h : lastSyncOf v = some (i, ls)) :
    i < v.length ∧ ls ∈ v ∧ (ls.query == "meta.sync") = true := by
  induction v generalizing i with
  | nil => cases h
  | cons a rest ih =>
      unfold lastSyncOf at h
      cases hrest : lastSyncOf rest with
      | some p =>
          rcases p with ⟨j, ls2⟩
          rw [hrest] at h
          rw [Option.some_inj] at h
          injection h with hi hls
          subst hi
          subst hls
          obtain ⟨h1, h2, h3⟩ := ih j hrest
          exact ⟨by simpa using Nat.succ_lt_succ h1, List.mem_cons_of_mem _ h2, h3⟩
      | none =>
          rw [hrest] at h
          by_cases hq : (a.query == "meta.sync") = true
          · rw [if_pos hq, Option.some_inj] at h
            injection h with hi hls
            subst hi
            subst hls
            exact ⟨by simp, List.mem_cons_self _ _, hq⟩
          · rw [if_neg hq] at h
            cases h

lemma pmaxOf_pos (v : List LogSpecM) : 0 < pmaxOf v := by
  unfold pmaxOf
  have key : ∀ (w : List LogSpecM) (a : ℚ),
      a ≤ w.foldl (fun acc l => max acc l.period) a := by
    intro w
    induction w with
    | nil => intro a; exact le_refl a
    | cons l rest ih =>
        intro a
        calc a ≤ max a l.period := le_max_left _ _
          _ ≤ rest.foldl (fun acc l => max acc l.period) (max a l.period) := ih _
  calc (0 : ℚ) < 1 := by norm_num
    _ ≤ _ := key v 1


lemma filter_sync_singleton (v : List LogSpecM) (ls : LogSpecM)
    (hmem : ls ∈ v) (hq : (ls.query == "meta.sync") = true)
    (hsync : (v.filter (fun l => l.query == "meta.sync")).length ≤ 1) :
    v.filter (fun l => l.query == "meta.sync") = [ls] := by
  have hmemf : ls ∈ v.filter (fun l => l.query == "meta.sync") :=
    List.mem_filter.2 ⟨hmem, hq⟩
  cases hf : v.filter (fun l => l.query == "meta.sync") with
  | nil => rw [hf] at hmemf; cases hmemf
  | cons a tail =>
      rw [hf] at hsync hmemf
      have htail : tail = [] := by
        cases tail with
        | nil => rfl
        | cons b bs => simp at hsync
      subst htail
      have := List.mem_singleton.1 hmemf
      rw [this]

/-- C9 (amended): the xlog scheduler rejects a spec list exactly when the
expected number of non-sync entries within one sync period, computed from
the normalized spec list, plus one for the sync entry itself, exceeds
LOS_window = 1000 (i.e. the code counts the sync entry too).  Positivity
of the periods and at most one meta.sync spec assumed. -/
theorem c9_xlog_validation (v : List LogSpecM)
    (hpos : ∀ l ∈ v, 0 < l.period)
    (hsync : (v.filter (fun l => l.query == "meta.sync")).length ≤ 1) :
    ((∃ e, xlogValidate v = Except.error e) ↔
      specNonSyncNs (normalizeSpecs v).2 (normalizeSpecs v).1 + 1 > (LOS_window : ℚ)) := by
  have herr : (∃ e, xlogValidate v = Except.error e) ↔
      nsOf (normalizeSpecs v).2 (normalizeSpecs v).1 > (LOS_window : ℚ) := by
    unfold xlogValidate
    by_cases hc : nsOf (normalizeSpecs v).2 (normalizeSpecs v).1 > (LOS_window : ℚ)
    · rw [if_pos hc]
      exact ⟨fun _ => hc, fun _ => ⟨_, rfl⟩⟩
    · rw [if_neg hc]
      refine ⟨?_, fun h => absurd h hc⟩
      intro ⟨e, he⟩
      cases he
  have hkey : nsOf (normalizeSpecs v).2 (normalizeSpecs v).1 =
      specNonSyncNs (normalizeSpecs v).2 (normalizeSpecs v).1 + 1 := by
    rw [nsOf_filter_split]
    have hsum1 : (((normalizeSpecs v).1.filter (fun l => l.query == "meta.sync")).map
        (fun l => (normalizeSpecs v).2.period / l.period)).sum = 1 := by
      cases hls : lastSyncOf v with
      | some p =>
          rcases p with ⟨i, ls⟩
          obtain ⟨hilen, hmem, hq⟩ := lastSyncOf_some v i ls hls
          have hfv := filter_sync_singleton v ls hmem hq hsync
          have hn2 : (normalizeSpecs v).2 = ls := by
            unfold normalizeSpecs
            rw [hls]
          have hperm : List.Perm
              ((normalizeSpecs v).1.filter (fun l => l.query == "meta.sync")) [ls] := by
            have hn1 : (normalizeSpecs v).1 =
                (if hasConfigGet v then v
                 else v.insertIdx (i + 1) ⟨"config_get", ls.period⟩) := by
              unfold normalizeSpecs
              rw [hls]
            rw [hn1]
            by_cases hcfg : hasConfigGet v = true
            · rw [if_pos hcfg, hfv]
            · rw [if_neg hcfg]
              have hp := insertIdx_perm (⟨"config_get", ls.period⟩ : LogSpecM)
                (i + 1) v (by omega)
              have hp2 := hp.filter (fun l => l.query == "meta.sync")
              rw [List.filter_cons] at hp2
              simp only [show (("config_get" == "meta.sync") = false) from rfl,
                Bool.false_eq_true, if_false] at hp2
              rw [hfv] at hp2
              exact hp2
          rw [(hperm.map (fun l => (normalizeSpecs v).2.period / l.period)).sum_eq]
          rw [hn2]
          simp only [List.map_cons, List.map_nil, List.sum_cons, List.sum_nil, add_zero]
          exact div_self (ne_of_gt (hpos ls hmem))
      | none =>
          have hfv : v.filter (fun l => l.query == "meta.sync") = [] := by
            rw [List.filter_eq_nil_iff]
            intro a ha
            simp [lastSyncOf_none v hls a ha]
          have hn2 : (normalizeSpecs v).2 = ⟨"meta.sync", pmaxOf v * 10⟩ := by
            unfold normalizeSpecs
            rw [hls]
          have hperm : List.Perm
              ((normalizeSpecs v).1.filter (fun l => l.query == "meta.sync"))
              [⟨"meta.sync", pmaxOf v * 10⟩] := by
            have hn1 : (normalizeSpecs v).1 =
                (if hasConfigGet v then (⟨"meta.sync", pmaxOf v * 10⟩ : LogSpecM) :: v
                 else ((⟨"meta.sync", pmaxOf v * 10⟩ : LogSpecM) :: v).insertIdx 1
                   ⟨"config_get", pmaxOf v * 10⟩) := by
              unfold normalizeSpecs
              rw [hls]
            rw [hn1]
            by_cases hcfg : hasConfigGet v = true
            · rw [if_pos hcfg]
              rw [List.filter_cons]
              simp only [show (("meta.sync" == "meta.sync") = true) from rfl, if_true]
              rw [hfv]
            · rw [if_neg hcfg]
              have hp := insertIdx_perm (⟨"config_get", pmaxOf v * 10⟩ : LogSpecM)
                1 ((⟨"meta.sync", pmaxOf v * 10⟩ : LogSpecM) :: v) (by simp)
              have hp2 := hp.filter (fun l => l.query == "meta.sync")
              rw [List.filter_cons, List.filter_cons] at hp2
              simp only [show (("config_get" == "meta.sync") = false) from rfl,
                show (("meta.sync" == "meta.sync") = true) from rfl,
                Bool.false_eq_true, if_false, if_true] at hp2
              rw [hfv] at hp2
              exact hp2
          rw [(hperm.map (fun l => (normalizeSpecs v).2.period / l.period)).sum_eq]
          rw [hn2]
          simp only [List.map_cons, List.map_nil, List.sum_cons, List.sum_nil, add_zero]
          refine div_self (ne_of_gt ?_)
          have := pmaxOf_pos v
      
          positivity
    rw [hsum1]
    ring
  rw [herr, hkey]

/-- Concrete spec list for the C9 boundary counterexample and witness:
meta.sync every 999 s plus stats every second. -/
def c9v0 : List LogSpecM := [⟨"meta.sync", 999⟩, ⟨"stats", 1⟩]

/-- C9 counterexample to the claim as stated: for [meta.sync/999s,
stats/1s] the normalized list gains config_get/999s; the expected number
of non-sync entries per sync period is 999 + 1 = 1000, not exceeding
LOS_window, yet the code rejects the list (its ns also counts the sync
entry itself: ns = 1001 > 1000). -/
theorem c9_los_boundary_counterexample :
    (∃ e, xlogValidate c9v0 = Except.error e) ∧
    ¬ (specNonSyncNs (normalizeSpecs c9v0).2 (normalizeSpecs c9v0).1 >
        (LOS_window : ℚ)) := by
  constructor
  · exact ⟨"meta.sync asked to come too rarely", by with_unfolding_all rfl⟩
  · with_unfolding_all decide

/-- Witness for C9 at the concrete spec list c9v0. -/
theorem c9_xlog_validation_witness :
    (∀ l ∈ c9v0, 0 < l.period) ∧
    (c9v0.filter (fun l => l.query == "meta.sync")).length ≤ 1 ∧
    ((∃ e, xlogValidate c9v0 = Except.error e) ↔
      specNonSyncNs (normalizeSpecs c9v0).2 (normalizeSpecs c9v0).1 + 1 >
        (LOS_window : ℚ)) := by
  refine ⟨?_, ?_, ?_⟩
  · with_unfolding_all decide
  · with_unfolding_all decide
  · exact c9_xlog_validation c9v0 (by with_unfolding_all decide)
      (by with_unfolding_all decide)

/-! ## xlog Reader  (amari/xlog.py)

The Reader yields typed entries with a readahead queue: messages are
queued until a covering sync (attached) or another event arrives; a
loss-of-sync counter counts entries since the last sync and queues a
LOSError once it exceeds LOS_window.  Entries are modelled abstractly,
after per-line parsing: sync events (with state, timestamp and optional
srv_time), other events, messages (with optional utc and mandatory time)
and undecodable lines.
-/

/-- One parsed xlog entry. -/
inductive XEntry
| syncE (attached : Bool) (time : ℚ) (srv_time : Option ℚ)
| eventE (time : ℚ)
| msgE (utc : Option ℚ) (time : ℚ)
| errE
deriving DecidableEq

/-- Is the entry a sync event (of any state)? -/
def isSyncE : XEntry → Bool
| .syncE _ _ _ => true
| _ => false

/-- An element of the Reader readahead queue _emsgq: an entry or a queued
LOSError. -/
inductive QItem
| qe (x : XEntry)
| qlos
deriving DecidableEq

/-- Reader state across reads: the covering sync (timestamp and srv_time
of the last attached sync, when not separated by another event) and the
number of entries seen since the last sync. -/
structure RdState where
  sync : Option (ℚ × Option ℚ)
  n_nosync : ℕ
deriving DecidableEq

/-- Freshly constructed Reader. -/
def rdInit : RdState := ⟨none, 0⟩

/-- One iteration of the readahead loop in Reader.read, for entry x: queue
x; a sync resets the counter (and, when attached, becomes the covering
sync); any other entry increments the counter and, when it exceeds
LOS_window, queues a LOSError. -/
def raStep (st : RdState) (q : List QItem) (x : XEntry) : RdState × List QItem :=
  let q1 := q ++ [QItem.qe x]
  match x with
  | .syncE a t s =>
      (⟨if a then some (t, s) else st.sync, 0⟩, q1)
  | _ =>
      let n1 := st.n_nosync + 1
      (⟨st.sync, n1⟩, if n1 > LOS_window then q1 ++ [QItem.qlos] else q1)

/-- The readahead loop of Reader.read: consume input entries until a
non-message arrives, or a message arrives while a covering sync is known,
or the input ends; returns the new state, the queue and the rest of the
input. -/
def readahead (st : RdState) (q : List QItem) : List XEntry → RdState × List QItem × List XEntry
| [] => (st, q, [])
| x :: rest =>
    let r := raStep st q x
    match x with
    | .msgE _ _ =>
        if r.1.sync = none then readahead r.1 r.2 rest else (r.1, r.2, rest)
    | _ => (r.1, r.2, rest)

lemma readahead_cons_le (rest : List XEntry) : ∀ (x : XEntry) (st : RdState) (q : List QItem),
    (readahead st q (x :: rest)).2.2.length ≤ rest.length := by
  induction rest with
  | nil =>
      intro x st q
      cases x with
      | msgE u t =>
          simp only [readahead]
          by_cases hs : (raStep st q (XEntry.msgE u t)).1.sync = none
          · rw [if_pos hs]
          · rw [if_neg hs]
      | syncE a t s => simp [readahead]
      | eventE t => simp [readahead]
      | errE => simp [readahead]
  | cons y rs ih =>
      intro x st q
      cases x with
      | msgE u t =>
          simp only [readahead]
          by_cases hs : (raStep st q (XEntry.msgE u t)).1.sync = none
          · rw [if_pos hs]
            exact le_trans (ih y _ _) (Nat.le_succ _)
          · rw [if_neg hs]
      | syncE a t s => simp [readahead]
      | eventE t => simp [readahead]
      | errE => simp [readahead]

/-- A typed item yielded (or raised) by Reader.read. -/
inductive ROut
| oSync (attached : Bool) (time : ℚ) (srv : Option ℚ)
| oEvent (time : ℚ)
| oMsg (utc : ℚ) (time : ℚ)
| oErr
| oNoTs
| oLos
deriving DecidableEq

/-- One step of the queue-flush part of Reader.read: pop the front item.
Flushing an attached sync keeps the covering sync; any other
event/error clears it.  A message without utc receives the reconstructed
timestamp time + (sync.timestamp − sync.srv_time) from the covering sync,
or raises a ParseError (oNoTs) when there is none usable. -/
def flushOne (st : RdState) : QItem → ROut × RdState
| .qlos => (.oLos, ⟨none, st.n_nosync⟩)
| .qe (.syncE a t s) => (.oSync a t s, if a then st else ⟨none, st.n_nosync⟩)
| .qe (.eventE t) => (.oEvent t, ⟨none, st.n_nosync⟩)
| .qe .errE => (.oErr, ⟨none, st.n_nosync⟩)
| .qe (.msgE u t) =>
    match u with
    | some uu => (.oMsg uu t, st)
    | none =>
        match st.sync with
        | some (ts, some srvt) => (.oMsg (t + (ts - srvt)) t, st)
        | _ => (.oNoTs, st)

/-- Reader.read iterated until EOF: flush the queue one item at a time,
and when it is empty run the readahead loop on the remaining input.  The
fuel argument only bounds the number of iterations (each flush consumes
one queue item; each readahead consumes at least one input entry and
queues at most two items per entry), so 3·|input| + 1 fuel is always
enough. -/
def rdProcessF : ℕ → RdState → List QItem → List XEntry → List ROut
| 0, _, _, _ => []
| fuel + 1, st, q, inp =>
    match q with
    | i :: qrest =>
        (flushOne st i).1 :: rdProcessF fuel (flushOne st i).2 qrest inp
    | [] =>
        match inp with
        | [] => []
        | x :: rest =>
            rdProcessF fuel (readahead st [] (x :: rest)).1
              (readahead st [] (x :: rest)).2.1
              (readahead st [] (x :: rest)).2.2

/-- All typed items produced by a Reader over the given entry stream. -/
def readerOutputs (inp : List XEntry) : List ROut :=
  rdProcessF (3 * inp.length + 1) rdInit [] inp

/-- C3 (amended): the Reader counts entries since the last sync: the
counter resets to zero exactly on sync entries and is incremented by every
other entry (message, non-sync event or error); when the count exceeds
LOS_window = 1000 a LOSError is queued behind the entry, and flushing the
queued LOSError raises it to the consumer. -/
theorem c3_los_counter (st : RdState) (q : List QItem) (x : XEntry) (st2 : RdState) :
    ((raStep st q x).1.n_nosync = if isSyncE x then 0 else st.n_nosync + 1) ∧
    ((raStep st q x).2 =
      if isSyncE x = false ∧ st.n_nosync + 1 > LOS_window then
        q ++ [QItem.qe x, QItem.qlos]
      else q ++ [QItem.qe x]) ∧
    (flushOne st2 QItem.qlos).1 = ROut.oLos := by
  refine ⟨?_, ?_, rfl⟩
  · cases x <;> simp [raStep, isSyncE]
  · cases x with
    | syncE a t s => simp [raStep, isSyncE]
    | eventE t =>
        by_cases hn : st.n_nosync + 1 > LOS_window <;>
          simp [raStep, isSyncE, hn]
    | msgE u t =>
        by_cases hn : st.n_nosync + 1 > LOS_window <;>
          simp [raStep, isSyncE, hn]
    | errE =>
        by_cases hn : st.n_nosync + 1 > LOS_window <;>
          simp [raStep, isSyncE, hn]

/-- C3 counterexample to the claim as stated: a (non-sync) event does not
reset the counter to zero — it increments it. -/
theorem c3_reset_counterexample :
    (raStep rdInit [] (XEntry.eventE 0)).1.n_nosync = 1 ∧ (1 : ℕ) ≠ 0 := by
  constructor
  · rfl
  · decide

/-! ## _BitSync1  (amari/drb.py)

Per-cell bitrate synchronizer: a queue of (tx_bytes, #tx) pairs with
absolute indices i_txq (global index of txq[0]) and i_lshift (next index
to left-shift).  next() appends, left-shifts #tx between adjacent frames,
then pops ready entries after rebalancing; finish() rebalances and flushes
the whole queue.
-/

/-- State of one _BitSync1. -/
structure BS1 where
  txq : List (ℚ × ℚ)
  i_txq : ℕ
  i_lshift : ℕ
deriving DecidableEq

/-- lshift(i) of _BitSync1.next at local index j: move the part of
txq[j+1]'s #tx that was acknowledged for txq[j]'s transmission into
txq[j]. -/
def lshiftAt (txq : List (ℚ × ℚ)) (j : ℕ) : List (ℚ × ℚ) :=
  match txq[j]?, txq[j+1]? with
  | some (b1, t1), some (b2, t2) =>
      let t22 := if b1 ≠ 0 then b2 * t1 / b1 else t2
      let t21 := t2 - t22
      if t21 > 0 then
        (txq.set j (b1, t1 + t21)).set (j+1) (b2, t2 - t21)
      else
        (txq.set j (b1, t1)).set (j+1) (b2, t2)
  | _, _ => txq

/-- The lshift while-loop of next(), run for its (precomputed) number of
iterations: each iteration shifts at i_lshift and advances it. -/
def lshiftLoop : ℕ → BS1 → BS1
| 0, s => s
| n + 1, s =>
    lshiftLoop n ⟨lshiftAt s.txq (s.i_lshift - s.i_txq), s.i_txq, s.i_lshift + 1⟩

/-- _BitSync1._rebalance(l): redistribute #tx of the first l queue entries
proportionally to their tx_bytes, keeping the total. -/
def rebal (l : ℕ) (txq : List (ℚ × ℚ)) : List (ℚ × ℚ) :=
  let sb := ((txq.take l).map Prod.fst).sum
  let st := ((txq.take l).map Prod.snd).sum
  if sb ≠ 0 then
    (txq.take l).map (fun p => (p.1, p.1 * st / sb)) ++ txq.drop l
  else txq

/-- The pop while-loop of next(), run for its (precomputed) number of
iterations len(txq)-2: each iteration rebalances the first two entries and
pops the front into the output. -/
def popLoop : ℕ → BS1 → List (ℚ × ℚ) × BS1
| 0, s => ([], s)
| n + 1, s =>
    match rebal 2 s.txq with
    | [] => ([], s)
    | p :: rest =>
        ((p :: (popLoop n ⟨rest, s.i_txq + 1, s.i_lshift⟩).1),
         (popLoop n ⟨rest, s.i_txq + 1, s.i_lshift⟩).2)

/-- _BitSync1.next(tx_bytes, tx): append, run the lshift loop while
i_lshift+1 < i_txq+len(txq), then pop entries while len(txq) >= 3. -/
def bs1Next (s : BS1) (b t : ℚ) : List (ℚ × ℚ) × BS1 :=
  let s1 : BS1 := ⟨s.txq ++ [(b, t)], s.i_txq, s.i_lshift⟩
  let s2 := lshiftLoop (s1.i_txq + s1.txq.length - 1 - s1.i_lshift) s1
  popLoop (s2.txq.length - 2) s2

/-- _BitSync1.finish(): rebalance the whole queue and flush it. -/
def bs1Finish (s : BS1) : List (ℚ × ℚ) :=
  rebal s.txq.length s.txq

/-- Feed a whole input sequence through next(), collecting all outputs. -/
def bs1Run : BS1 → List (ℚ × ℚ) → List (ℚ × ℚ) × BS1
| s, [] => ([], s)
| s, p :: rest =>
    ((bs1Next s p.1 p.2).1 ++ (bs1Run (bs1Next s p.1 p.2).2 rest).1,
     (bs1Run (bs1Next s p.1 p.2).2 rest).2)

/-- The complete per-cell bitsync output of an input sequence: all outputs
of successive next() calls followed by the output of finish(). -/
def bitsync1 (S : List (ℚ × ℚ)) : List (ℚ × ℚ) :=
  (bs1Run ⟨[], 0, 0⟩ S).1 ++ bs1Finish (bs1Run ⟨[], 0, 0⟩ S).2

/-- Shape of every reachable _BitSync1 state: empty queue with
i_lshift = i_txq, one entry with i_lshift = i_txq, or two entries with
i_lshift = i_txq + 1. -/
def ShapeInv (s : BS1) : Prop :=
  (s.txq = [] ∧ s.i_lshift = s.i_txq) ∨
  ((∃ x, s.txq = [x]) ∧ s.i_lshift = s.i_txq) ∨
  (∃ x y, s.txq = [x, y] ∧ s.i_lshift = s.i_txq + 1)

lemma rebal_length (l : ℕ) (txq : List (ℚ × ℚ)) :
    (rebal l txq).length = txq.length := by
  simp only [rebal]
  split
  · simp only [List.length_append, List.length_map, List.length_take, List.length_drop]
    omega
  · rfl

lemma rebal_two_cons (a c : ℚ × ℚ) (rest : List (ℚ × ℚ)) :
    rebal 2 (a :: c :: rest) = rebal 2 [a, c] ++ rest := by
  simp only [rebal, List.take_succ_cons, List.take_zero, List.drop_succ_cons,
    List.drop_zero, List.take_nil, List.drop_nil]
  split
  · simp
  · simp

lemma rebal_two (b1 t1 b2 t2 : ℚ) :
    rebal 2 [(b1, t1), (b2, t2)] =
      if b1 + b2 = 0 then [(b1, t1), (b2, t2)]
      else [(b1, b1 * (t1 + t2) / (b1 + b2)), (b2, b2 * (t1 + t2) / (b1 + b2))] := by
  by_cases h : b1 + b2 = 0 <;>
    simp [rebal, h]

lemma rebal_one (b t : ℚ) : rebal 1 [(b, t)] = [(b, t)] := by
  by_cases h : b = 0 <;>
    simp [rebal, h, mul_div_cancel_left₀]

lemma rebal_two_zero (b t : ℚ) :
    rebal 2 [(b, t), (0, 0)] = [(b, t), (0, 0)] := by
  rw [rebal_two]
  by_cases h : b = 0
  · simp [h]
  · rw [if_neg (show ¬(b + 0 = 0) by simp [h])]
    rw [add_zero, add_zero, mul_div_cancel_left₀ _ h]
    simp

lemma lshiftAt_zero_pair (b t : ℚ) :
    lshiftAt [(b, t), (0, 0)] 0 = [(b, t), (0, 0)] := by
  by_cases hb : b = 0 <;>
    simp [lshiftAt, hb]

lemma lshiftAt_zero_three (p : ℚ × ℚ) (b t : ℚ) :
    lshiftAt [p, (b, t), (0, 0)] 1 = [p, (b, t), (0, 0)] := by
  by_cases hb : b = 0 <;>
    simp [lshiftAt, hb]

lemma lshiftAt_length (txq : List (ℚ × ℚ)) (j : ℕ) :
    (lshiftAt txq j).length = txq.length := by
  simp only [lshiftAt]
  split
  · split <;> split <;> simp
  · rfl

lemma lshiftAt_two (a c : ℚ × ℚ) : ∃ a' c', lshiftAt [a, c] 0 = [a', c'] := by
  have h : (lshiftAt [a, c] 0).length = 2 := by rw [lshiftAt_length]; rfl
  exact List.length_eq_two.mp h

lemma lshiftAt_three (p a c : ℚ × ℚ) :
    ∃ p' a' c', lshiftAt [p, a, c] 1 = [p', a', c'] := by
  have h : (lshiftAt [p, a, c] 1).length = 3 := by rw [lshiftAt_length]; rfl
  exact List.length_eq_three.mp h

lemma bs1Next_nil (it : ℕ) (b t : ℚ) :
    bs1Next ⟨[], it, it⟩ b t = ([], ⟨[(b, t)], it, it⟩) := by
  have h1 : it + 1 - 1 - it = 0 := by omega
  simp [bs1Next, h1, lshiftLoop, popLoop]

lemma rebal_one_pair (x : ℚ × ℚ) : rebal 1 [x] = [x] := by
  obtain ⟨b, t⟩ := x
  exact rebal_one b t

lemma rebal_two_zero_pair (x : ℚ × ℚ) : rebal 2 [x, (0, 0)] = [x, (0, 0)] := by
  obtain ⟨b, t⟩ := x
  exact rebal_two_zero b t

lemma lshiftAt_zero_pair_x (x : ℚ × ℚ) : lshiftAt [x, (0, 0)] 0 = [x, (0, 0)] := by
  obtain ⟨b, t⟩ := x
  exact lshiftAt_zero_pair b t

lemma lshiftAt_zero_three_x (p x : ℚ × ℚ) :
    lshiftAt [p, x, (0, 0)] 1 = [p, x, (0, 0)] := by
  obtain ⟨b, t⟩ := x
  exact lshiftAt_zero_three p b t

lemma bs1Run_cons (s : BS1) (p : ℚ × ℚ) (rest : List (ℚ × ℚ)) :
    bs1Run s (p :: rest) =
      ((bs1Next s p.1 p.2).1 ++ (bs1Run (bs1Next s p.1 p.2).2 rest).1,
       (bs1Run (bs1Next s p.1 p.2).2 rest).2) := rfl

lemma bs1Next_one (x : ℚ × ℚ) (it : ℕ) (b t : ℚ) :
    ∃ x' y', bs1Next ⟨[x], it, it⟩ b t = ([], ⟨[x', y'], it, it + 1⟩) := by
  obtain ⟨x', y', hx⟩ := lshiftAt_two x (b, t)
  have h1 : it + 2 - 1 - it = 1 := by omega
  refine ⟨x', y', ?_⟩
  show popLoop ((lshiftLoop (it + 2 - 1 - it) ⟨[x, (b, t)], it, it⟩).txq.length - 2)
      (lshiftLoop (it + 2 - 1 - it) ⟨[x, (b, t)], it, it⟩) = ([], ⟨[x', y'], it, it + 1⟩)
  rw [h1]
  show popLoop ((lshiftAt [x, (b, t)] (it - it)).length - 2)
      ⟨lshiftAt [x, (b, t)] (it - it), it, it + 1⟩ = ([], ⟨[x', y'], it, it + 1⟩)
  rw [Nat.sub_self, hx]
  rfl

lemma bs1Next_zero_one (x : ℚ × ℚ) (it : ℕ) :
    bs1Next ⟨[x], it, it⟩ 0 0 = ([], ⟨[x, (0, 0)], it, it + 1⟩) := by
  have h1 : it + 2 - 1 - it = 1 := by omega
  show popLoop ((lshiftLoop (it + 2 - 1 - it) ⟨[x, (0, 0)], it, it⟩).txq.length - 2)
      (lshiftLoop (it + 2 - 1 - it) ⟨[x, (0, 0)], it, it⟩) = ([], ⟨[x, (0, 0)], it, it + 1⟩)
  rw [h1]
  show popLoop ((lshiftAt [x, (0, 0)] (it - it)).length - 2)
      ⟨lshiftAt [x, (0, 0)] (it - it), it, it + 1⟩ = ([], ⟨[x, (0, 0)], it, it + 1⟩)
  rw [Nat.sub_self, lshiftAt_zero_pair_x]
  rfl

lemma bs1Next_two (x y : ℚ × ℚ) (it : ℕ) (b t : ℚ) :
    ∃ o x' y', bs1Next ⟨[x, y], it, it + 1⟩ b t = ([o], ⟨[x', y'], it + 1, it + 2⟩) := by
  obtain ⟨p', a', c', hl⟩ := lshiftAt_three x y (b, t)
  have h1 : it + 3 - 1 - (it + 1) = 1 := by omega
  have h0 : it + 1 - it = 1 := by omega
  obtain ⟨q1, q2, hq⟩ : ∃ q1 q2, rebal 2 [p', a'] = [q1, q2] :=
    List.length_eq_two.mp (by simp [rebal_length])
  refine ⟨q1, q2, c', ?_⟩
  show popLoop ((lshiftLoop (it + 3 - 1 - (it + 1)) ⟨[x, y, (b, t)], it, it + 1⟩).txq.length - 2)
      (lshiftLoop (it + 3 - 1 - (it + 1)) ⟨[x, y, (b, t)], it, it + 1⟩) =
        ([q1], ⟨[q2, c'], it + 1, it + 2⟩)
  rw [h1]
  show popLoop ((lshiftAt [x, y, (b, t)] (it + 1 - it)).length - 2)
      ⟨lshiftAt [x, y, (b, t)] (it + 1 - it), it, it + 2⟩ = ([q1], ⟨[q2, c'], it + 1, it + 2⟩)
  rw [h0, hl]
  show popLoop 1 ⟨[p', a', c'], it, it + 2⟩ = ([q1], ⟨[q2, c'], it + 1, it + 2⟩)
  simp only [popLoop, rebal_two_cons, hq, List.cons_append, List.nil_append]

lemma bs1Next_zero_two (x y : ℚ × ℚ) (it : ℕ) :
    bs1Next ⟨[x, y], it, it + 1⟩ 0 0 =
      ((rebal 2 [x, y]).take 1,
       ⟨(rebal 2 [x, y]).drop 1 ++ [(0, 0)], it + 1, it + 1 + 1⟩) := by
  have h1 : it + 3 - 1 - (it + 1) = 1 := by omega
  have h0 : it + 1 - it = 1 := by omega
  obtain ⟨q1, q2, hq⟩ : ∃ q1 q2, rebal 2 [x, y] = [q1, q2] :=
    List.length_eq_two.mp (by simp [rebal_length])
  show popLoop ((lshiftLoop (it + 3 - 1 - (it + 1)) ⟨[x, y, (0, 0)], it, it + 1⟩).txq.length - 2)
      (lshiftLoop (it + 3 - 1 - (it + 1)) ⟨[x, y, (0, 0)], it, it + 1⟩) = _
  rw [h1]
  show popLoop ((lshiftAt [x, y, (0, 0)] (it + 1 - it)).length - 2)
      ⟨lshiftAt [x, y, (0, 0)] (it + 1 - it), it, it + 2⟩ = _
  rw [h0, lshiftAt_zero_three_x]
  show popLoop 1 ⟨[x, y, (0, 0)], it, it + 2⟩ = _
  simp only [popLoop, rebal_two_cons, hq, List.cons_append, List.nil_append]
  simp [hq]

lemma bs1Run_zz (k : ℕ) : ∀ it : ℕ,
    bs1Run ⟨[(0, 0), (0, 0)], it, it + 1⟩ (List.replicate k ((0 : ℚ), (0 : ℚ))) =
      (List.replicate k (0, 0), ⟨[(0, 0), (0, 0)], it + k, it + k + 1⟩) := by
  induction k with
  | zero => intro it; simp [bs1Run]
  | succ k ih =>
      intro it
      rw [List.replicate_succ, bs1Run_cons]
      have zz : bs1Next ⟨[(0, 0), (0, 0)], it, it + 1⟩ (0 : ℚ) (0 : ℚ) =
          ([(0, 0)], ⟨[(0, 0), (0, 0)], it + 1, it + 1 + 1⟩) := by
        rw [bs1Next_zero_two, rebal_two_zero_pair]
        rfl
      rw [show ((0 : ℚ), (0 : ℚ)).1 = (0 : ℚ) from rfl,
          show ((0 : ℚ), (0 : ℚ)).2 = (0 : ℚ) from rfl, zz, ih (it + 1)]
      simp only [List.replicate_succ, List.singleton_append, Prod.mk.injEq, BS1.mk.injEq,
        List.cons.injEq, and_true, true_and]
      omega

lemma bs1Finish_two (x y : ℚ × ℚ) (a b : ℕ) : bs1Finish ⟨[x, y], a, b⟩ = rebal 2 [x, y] := rfl

lemma bs1Finish_one (x : ℚ × ℚ) (a b : ℕ) : bs1Finish ⟨[x], a, b⟩ = rebal 1 [x] := rfl

lemma bs1Finish_nil (a b : ℕ) : bs1Finish ⟨[], a, b⟩ = [] := by
  simp [bs1Finish, rebal]

lemma take_one_two (a b : ℚ × ℚ) : List.take 1 [a, b] = [a] := rfl

lemma drop_one_two (a b : ℚ × ℚ) : List.drop 1 [a, b] = [b] := rfl

lemma rep8_pad : List.replicate 8 ((0 : ℚ), (0 : ℚ)) ++ [(0, 0), (0, 0)]
    = List.replicate 10 ((0 : ℚ), (0 : ℚ)) := rfl

lemma bs1_zeros (s : BS1) (hs : ShapeInv s) :
    (bs1Run s (List.replicate 10 ((0 : ℚ), (0 : ℚ)))).1
        ++ bs1Finish (bs1Run s (List.replicate 10 ((0 : ℚ), (0 : ℚ)))).2
      = bs1Finish s ++ List.replicate 10 (0, 0) := by
  obtain ⟨txq, it, il⟩ := s
  have h10 : List.replicate 10 ((0 : ℚ), (0 : ℚ))
      = (0, 0) :: (0, 0) :: List.replicate 8 (0, 0) := rfl
  rcases hs with ⟨hq, hl⟩ | ⟨⟨x, hq⟩, hl⟩ | ⟨x, y, hq, hl⟩
  · simp only at hq hl
    subst txq; subst il
    simp only [h10, bs1Run_cons, bs1Next_nil, bs1Next_zero_one, bs1Run_zz,
      bs1Finish_nil, bs1Finish_two, rebal_two_zero_pair,
      List.nil_append, List.append_nil, List.cons_append, rep8_pad]
  · simp only at hq hl
    subst txq; subst il
    simp only [h10, bs1Run_cons, bs1Next_zero_one, bs1Next_zero_two,
      rebal_two_zero_pair, take_one_two, drop_one_two, bs1Run_zz,
      bs1Finish_one, rebal_one_pair, bs1Finish_two,
      List.nil_append, List.append_nil, List.cons_append, List.singleton_append,
      List.append_assoc, rep8_pad]
  · simp only at hq hl
    subst txq; subst il
    obtain ⟨q1, q2, hq2⟩ : ∃ q1 q2, rebal 2 [x, y] = [q1, q2] :=
      List.length_eq_two.mp (by simp [rebal_length])
    simp only [h10, bs1Run_cons, bs1Next_zero_two, hq2, rebal_two_zero_pair,
      take_one_two, drop_one_two, bs1Run_zz, bs1Finish_two,
      List.nil_append, List.append_nil, List.cons_append, List.singleton_append,
      List.append_assoc, rep8_pad]

lemma bs1Next_shape (s : BS1) (hs : ShapeInv s) (b t : ℚ) :
    ShapeInv (bs1Next s b t).2 := by
  obtain ⟨txq, it, il⟩ := s
  rcases hs with ⟨hq, hl⟩ | ⟨⟨x, hq⟩, hl⟩ | ⟨x, y, hq, hl⟩
  · simp only at hq hl
    subst txq; subst il
    rw [bs1Next_nil]
    exact Or.inr (Or.inl ⟨⟨_, rfl⟩, rfl⟩)
  · simp only at hq hl
    subst txq; subst il
    obtain ⟨x', y', h⟩ := bs1Next_one x it b t
    rw [h]
    exact Or.inr (Or.inr ⟨x', y', rfl, rfl⟩)
  · simp only at hq hl
    subst txq; subst il
    obtain ⟨o, x', y', h⟩ := bs1Next_two x y it b t
    rw [h]
    exact Or.inr (Or.inr ⟨x', y', rfl, rfl⟩)

lemma bs1Run_shape (S : List (ℚ × ℚ)) : ∀ s : BS1, ShapeInv s → ShapeInv (bs1Run s S).2 := by
  induction S with
  | nil => intro s hs; exact hs
  | cons p rest ih =>
      intro s hs
      rw [bs1Run_cons]
      exact ih _ (bs1Next_shape s hs p.1 p.2)

lemma bs1Run_append (A B : List (ℚ × ℚ)) : ∀ s : BS1,
    bs1Run s (A ++ B) =
      ((bs1Run s A).1 ++ (bs1Run (bs1Run s A).2 B).1, (bs1Run (bs1Run s A).2 B).2) := by
  induction A with
  | nil => intro s; simp [bs1Run]
  | cons p rest ih =>
      intro s
      rw [List.cons_append, bs1Run_cons, ih, bs1Run_cons]
      simp [List.append_assoc]

/-- C6: appending ten (0,0) entries to any input sequence appends exactly
ten (0,0) entries to the complete per-cell bitsync output (all next()
outputs followed by finish()). -/
theorem c6_bitsync_zero_padding (S : List (ℚ × ℚ)) :
    bitsync1 (S ++ List.replicate 10 (0, 0)) = bitsync1 S ++ List.replicate 10 (0, 0) := by
  have hshape : ShapeInv (bs1Run ⟨[], 0, 0⟩ S).2 :=
    bs1Run_shape S ⟨[], 0, 0⟩ (Or.inl ⟨rfl, rfl⟩)
  have hz := bs1_zeros (bs1Run ⟨[], 0, 0⟩ S).2 hshape
  simp only [bitsync1, bs1Run_append]
  rw [List.append_assoc, hz, ← List.append_assoc]

/-! ## _ReverseLineReader  (amari/xlog.py)

The reverse line reader wraps a file (modelled as its character content)
and returns its lines from end to start, reading backwards in
bufsize-sized chunks.  Its state is the not-yet-consumed prefix of the
file, split into the part before the current buffer (pending) and the
current buffer itself.
-/

/-- Suffix of l strictly after its last LF (all of l when it has none). -/
def tailNoLF (l : List Char) : List Char :=
  (l.reverse.takeWhile (fun c => c != '\n')).reverse

/-- Prefix of l up to and including its last LF ([] when it has none). -/
def dropTail (l : List Char) : List Char :=
  (l.reverse.dropWhile (fun c => c != '\n')).reverse

lemma takeWhile_append_bad {p : Char → Bool} {l l' : List Char}
    (h : ∃ c ∈ l, p c = false) : (l ++ l').takeWhile p = l.takeWhile p := by
  induction l with
  | nil =>
      obtain ⟨c, hc, _⟩ := h
      exact absurd hc (List.not_mem_nil c)
  | cons a rest ih =>
      by_cases ha : p a
      · obtain ⟨c, hc, hpc⟩ := h
        have hcr : c ∈ rest := by
          rcases List.mem_cons.mp hc with h1 | h1
          · rw [h1] at hpc
            rw [ha] at hpc
            exact absurd hpc (by simp)
          · exact h1
        simp [List.takeWhile_cons, ha, ih ⟨c, hcr, hpc⟩]
      · simp [List.takeWhile_cons, ha]

lemma dropWhile_append_bad {p : Char → Bool} {l l' : List Char}
    (h : ∃ c ∈ l, p c = false) : (l ++ l').dropWhile p = l.dropWhile p ++ l' := by
  induction l with
  | nil =>
      obtain ⟨c, hc, _⟩ := h
      exact absurd hc (List.not_mem_nil c)
  | cons a rest ih =>
      by_cases ha : p a
      · obtain ⟨c, hc, hpc⟩ := h
        have hcr : c ∈ rest := by
          rcases List.mem_cons.mp hc with h1 | h1
          · rw [h1] at hpc
            rw [ha] at hpc
            exact absurd hpc (by simp)
          · exact h1
        simp [List.dropWhile_cons, ha, ih ⟨c, hcr, hpc⟩]
      · simp [List.dropWhile_cons, ha]

lemma dropWhile_head_false {p : Char → Bool} :
    ∀ (l : List Char) (c : Char) (rest : List Char),
      l.dropWhile p = c :: rest → p c = false := by
  intro l
  induction l with
  | nil => intro c rest h; exact absurd h (by simp)
  | cons a l ih =>
      intro c rest h
      by_cases ha : p a
      · rw [List.dropWhile_cons_of_pos ha] at h
        exact ih c rest h
      · rw [List.dropWhile_cons_of_neg ha] at h
        injection h with h1 h2
        subst h1
        simpa using ha

lemma dropTail_append_tail (l : List Char) : dropTail l ++ tailNoLF l = l := by
  have h2 := congrArg List.reverse
    (List.takeWhile_append_dropWhile (fun c => c != '\n') l.reverse)
  rw [List.reverse_append, List.reverse_reverse] at h2
  simpa [dropTail, tailNoLF] using h2

lemma mem_rev_all_nlf {t : List Char} (h : '\n' ∉ t) :
    ∀ c ∈ t.reverse, (c != '\n') = true := by
  intro c hc
  rw [List.mem_reverse] at hc
  simp only [bne_iff_ne, ne_eq]
  intro he
  rw [he] at hc
  exact h hc

lemma mem_rev_bad_nlf {t : List Char} (h : '\n' ∈ t) :
    ∃ c ∈ t.reverse, (c != '\n') = false := by
  refine ⟨'\n', List.mem_reverse.mpr h, by simp⟩

lemma tailNoLF_append_right (s t : List Char) (h : '\n' ∉ t) :
    tailNoLF (s ++ t) = tailNoLF s ++ t := by
  simp only [tailNoLF, List.reverse_append]
  rw [List.takeWhile_append_of_pos (mem_rev_all_nlf h)]
  simp

lemma tailNoLF_append_left (s t : List Char) (h : '\n' ∈ t) :
    tailNoLF (s ++ t) = tailNoLF t := by
  simp only [tailNoLF, List.reverse_append]
  rw [takeWhile_append_bad (mem_rev_bad_nlf h)]

lemma dropTail_append_right (s t : List Char) (h : '\n' ∉ t) :
    dropTail (s ++ t) = dropTail s := by
  simp only [dropTail, List.reverse_append]
  rw [List.dropWhile_append_of_pos (mem_rev_all_nlf h)]

lemma dropTail_append_left (s t : List Char) (h : '\n' ∈ t) :
    dropTail (s ++ t) = s ++ dropTail t := by
  simp only [dropTail, List.reverse_append]
  rw [dropWhile_append_bad (mem_rev_bad_nlf h)]
  simp

lemma tailNoLF_not_mem (l : List Char) : '\n' ∉ tailNoLF l := by
  intro h
  rw [tailNoLF, List.mem_reverse] at h
  have := List.mem_takeWhile_imp h
  simp at this

lemma tailNoLF_of_not_mem {l : List Char} (h : '\n' ∉ l) : tailNoLF l = l := by
  have := tailNoLF_append_right [] l h
  simpa [tailNoLF] using this

lemma dropTail_getLast (l : List Char) :
    dropTail l = [] ∨ (dropTail l).getLast? = some '\n' := by
  rcases hd : l.reverse.dropWhile (fun c => c != '\n') with _ | ⟨c, rest⟩
  · left
    simp [dropTail, hd]
  · right
    have hc : (c != '\n') = false := dropWhile_head_false l.reverse c rest hd
    have hc2 : c = '\n' := by simpa using hc
    rw [dropTail, hd, List.reverse_cons, hc2]
    exact List.getLast?_concat _

/-- buf.rfind of LF: index of the last LF in the list, if any (mirrors
Python rfind returning -1 as none). -/
def rfindLF : List Char → Option ℕ
| [] => none
| c :: rest =>
    match rfindLF rest with
    | some i => some (i + 1)
    | none => if c = '\n' then some 0 else none

lemma rfindLF_none : ∀ l : List Char, rfindLF l = none ↔ '\n' ∉ l := by
  intro l
  induction l with
  | nil => simp [rfindLF]
  | cons c rest ih =>
      rcases h : rfindLF rest with _ | i
      · have hr : '\n' ∉ rest := (ih.mp h)
        by_cases hc : c = '\n'
        · simp [rfindLF, h, hc]
        · simp [rfindLF, h, hc, hr, Ne.symm hc]
      · have hr : '\n' ∈ rest := by
          by_contra hn
          rw [← ih] at hn
          rw [h] at hn
          exact absurd hn (by simp)
        simp [rfindLF, h, hr]

lemma rfindLF_some : ∀ (l : List Char) (lf : ℕ), rfindLF l = some lf →
    l.drop lf = '\n' :: tailNoLF l ∧ lf + 1 + (tailNoLF l).length = l.length := by
  intro l
  induction l with
  | nil => intro lf h; exact absurd h (by simp [rfindLF])
  | cons c rest ih =>
      intro lf h
      rcases hr : rfindLF rest with _ | i
      · have hnm : '\n' ∉ rest := (rfindLF_none rest).mp hr
        rw [rfindLF, hr] at h
        by_cases hc : c = '\n'
        · rw [if_pos hc] at h
          injection h with hlf
          subst hlf
          subst hc
          have ht : tailNoLF ('\n' :: rest) = rest := by
            have := tailNoLF_append_right ['\n'] rest hnm
            rw [show tailNoLF ['\n'] = [] from rfl] at this
            simpa using this
          rw [ht]
          simp
          omega
        · rw [if_neg hc] at h
          exact absurd h (by simp)
      · rw [rfindLF, hr] at h
        injection h with hlf
        subst hlf
        have hnm : '\n' ∈ rest := by
          have := (ih i hr).1
          have hmem : '\n' ∈ rest.drop i := by rw [this]; simp
          exact List.drop_subset i rest hmem
        have ht : tailNoLF (c :: rest) = tailNoLF rest := by
          have := tailNoLF_append_left [c] rest hnm
          simpa using this
        obtain ⟨hd, hl⟩ := ih i hr
        refine ⟨?_, ?_⟩
        · rw [ht]
          simpa [List.drop_succ_cons] using hd
        · rw [ht]
          simp only [List.length_cons]
          omega

lemma rfindLF_mem {l : List Char} {lf : ℕ} (h : rfindLF l = some lf) : '\n' ∈ l := by
  have hd := (rfindLF_some l lf h).1
  have : '\n' ∈ l.drop lf := by rw [hd]; simp
  exact List.drop_subset lf l this

lemma rfindLF_drop1 {l : List Char} {lf : ℕ} (h : rfindLF l = some lf) :
    l.drop (lf + 1) = tailNoLF l := by
  have hd := (rfindLF_some l lf h).1
  have : l.drop (lf + 1) = (l.drop lf).drop 1 := by
    rw [List.drop_drop]
  rw [this, hd]
  rfl

lemma dropTail_length (l : List Char) :
    (dropTail l).length + (tailNoLF l).length = l.length := by
  have := congrArg List.length (dropTail_append_tail l)
  simpa using this

lemma rfindLF_take1 {l : List Char} {lf : ℕ} (h : rfindLF l = some lf) :
    l.take (lf + 1) = dropTail l := by
  have hl := (rfindLF_some l lf h).2
  have hlen : (dropTail l).length = lf + 1 := by
    have := dropTail_length l
    omega
  have hsplit := dropTail_append_tail l
  calc l.take (lf + 1) = (dropTail l ++ tailNoLF l).take (lf + 1) := by rw [hsplit]
    _ = dropTail l := List.take_left' hlen

/-- _ReverseLineReader.readline, one call: the loop body, with the state
(pending, buf) of not-yet-consumed content and the chunk accumulator.
Returns (line, pending, buf) after the loop breaks.  Fuel only bounds the
iteration count; 2·|pending| + |buf| + 1 is always enough. -/
def rlGo (bufsize : ℕ) : ℕ → List Char → List Char → List Char → List Char × List Char × List Char
| 0, pending, buf, chunkv => (chunkv, pending, buf)
| fuel + 1, pending, buf, chunkv =>
    if buf = [] then
      if pending = [] then (chunkv, pending, buf)
      else
        rlGo bufsize fuel (pending.take (pending.length - bufsize))
          (pending.drop (pending.length - bufsize)) chunkv
    else
      match rfindLF buf with
      | none => rlGo bufsize fuel pending [] (buf ++ chunkv)
      | some lf =>
          if chunkv = [] ∧ lf + 1 = buf.length then
            rlGo bufsize fuel pending (buf.take lf) (buf.drop lf ++ chunkv)
          else
            (buf.drop (lf + 1) ++ chunkv, pending, buf.take (lf + 1))

/-- Intended result of one readline call on remaining content rem with
accumulated chunk chunkv: the last line of rem (with chunkv appended), and
the remaining content. -/
def rlSpec (rem chunkv : List Char) : List Char × List Char :=
  if chunkv = [] ∧ rem.getLast? = some '\n' then
    (tailNoLF rem.dropLast ++ ['\n'], dropTail rem.dropLast)
  else
    (tailNoLF rem ++ chunkv, dropTail rem)

lemma rlGo_spec (bufsize : ℕ) (hbs : 1 ≤ bufsize) :
    ∀ (fuel : ℕ) (pending buf chunkv : List Char),
      2 * pending.length + buf.length < fuel →
      (rlGo bufsize fuel pending buf chunkv).1 = (rlSpec (pending ++ buf) chunkv).1 ∧
      (rlGo bufsize fuel pending buf chunkv).2.1 ++ (rlGo bufsize fuel pending buf chunkv).2.2
        = (rlSpec (pending ++ buf) chunkv).2 := by
  intro fuel
  induction fuel with
  | zero =>
      intro p b c h
      exact absurd h (by omega)
  | succ fuel ih =>
      intro pending buf chunkv hf
      by_cases hb : buf = []
      · subst hb
        by_cases hp : pending = []
        · subst hp
          simp [rlGo, rlSpec, tailNoLF, dropTail]
        · have hlp : 1 ≤ pending.length := List.length_pos.mpr hp
          have hbound : 2 * (pending.take (pending.length - bufsize)).length
              + (pending.drop (pending.length - bufsize)).length < fuel := by
            simp only [List.length_take, List.length_drop]
            simp only [List.length_nil, Nat.add_zero] at hf
            omega
          have hres := ih (pending.take (pending.length - bufsize))
            (pending.drop (pending.length - bufsize)) chunkv hbound
          rw [List.take_append_drop] at hres
          have hstep : rlGo bufsize (fuel + 1) pending [] chunkv
              = rlGo bufsize fuel (pending.take (pending.length - bufsize))
                  (pending.drop (pending.length - bufsize)) chunkv := by
            simp [rlGo, hp]
          rw [hstep]
          simpa using hres
      · rcases hfind : rfindLF buf with _ | lf
        · -- no LF in the buffer: queue it whole and reload
          have hnl : '\n' ∉ buf := (rfindLF_none buf).mp hfind
          have hbuf1 : 1 ≤ buf.length := List.length_pos.mpr hb
          have hbound : 2 * pending.length + ([] : List Char).length < fuel := by
            simp only [List.length_nil, Nat.add_zero]
            omega
          have hres := ih pending [] (buf ++ chunkv) hbound
          rw [List.append_nil] at hres
          have hstep : rlGo bufsize (fuel + 1) pending buf chunkv
              = rlGo bufsize fuel pending [] (buf ++ chunkv) := by
            simp [rlGo, hb, hfind]
          have hc2 : ¬(buf ++ chunkv = [] ∧ pending.getLast? = some '\n') := by
            rintro ⟨h1, _⟩
            exact hb (List.append_eq_nil.mp h1).1
          rw [rlSpec, if_neg hc2] at hres
          obtain ⟨L, b0, hLb⟩ : ∃ L b0, buf = L ++ [b0] := by
            rcases List.eq_nil_or_concat buf with h0 | ⟨L, b0, h0⟩
            · exact absurd h0 hb
            · exact ⟨L, b0, by simpa [List.concat_eq_append] using h0⟩
          have hb0 : b0 ≠ '\n' := by
            intro he
            apply hnl
            rw [hLb, he]
            simp
          have hlast : (pending ++ buf).getLast? = some b0 := by
            rw [hLb, show pending ++ (L ++ [b0]) = (pending ++ L) ++ [b0] by simp,
              List.getLast?_concat]
          have hcond : ¬(chunkv = [] ∧ (pending ++ buf).getLast? = some '\n') := by
            rintro ⟨_, h2⟩
            rw [hlast] at h2
            injection h2 with h3
            exact hb0 h3
          rw [hstep, rlSpec, if_neg hcond]
          refine ⟨?_, ?_⟩
          · rw [hres.1]
            rw [tailNoLF_append_right pending buf hnl, List.append_assoc]
          · rw [hres.2]
            rw [dropTail_append_right pending buf hnl]
        · by_cases hsp : chunkv = [] ∧ lf + 1 = buf.length
          · -- started reading from the ending LF
            obtain ⟨hc0, hlf1⟩ := hsp
            subst hc0
            have hdrop := (rfindLF_some buf lf hfind).1
            have hlen := (rfindLF_some buf lf hfind).2
            have htl : tailNoLF buf = [] := by
              have h0 : (tailNoLF buf).length = 0 := by omega
              exact List.length_eq_zero.mp h0
            rw [htl] at hdrop
            have hbufeq : buf = buf.take lf ++ ['\n'] := by
              conv_lhs => rw [← List.take_append_drop lf buf]
              rw [hdrop]
            have htk : (buf.take lf).length = lf := by
              rw [List.length_take]
              omega
            have hbound : 2 * pending.length + (buf.take lf).length < fuel := by
              rw [htk]
              omega
            have hres := ih pending (buf.take lf) (buf.drop lf ++ []) hbound
            rw [hdrop] at hres
            simp only [List.append_nil] at hres
            have hstep : rlGo bufsize (fuel + 1) pending buf ([] : List Char)
                = rlGo bufsize fuel pending (buf.take lf) (buf.drop lf ++ []) := by
              simp only [rlGo, hfind]
              rw [if_neg hb, if_pos ⟨trivial, hlf1⟩]
            rw [hdrop] at hstep
            simp only [List.append_nil] at hstep
            have hcq : ¬((['\n'] : List Char) = [] ∧
                (pending ++ buf.take lf).getLast? = some '\n') := by
              rintro ⟨h1, _⟩
              exact absurd h1 (by simp)
            rw [rlSpec, if_neg hcq] at hres
            have hglast : (pending ++ buf).getLast? = some '\n' := by
              conv_lhs => rw [hbufeq]
              rw [show pending ++ (buf.take lf ++ ['\n'])
                  = (pending ++ buf.take lf) ++ ['\n'] by simp, List.getLast?_concat]
            have hdl : (pending ++ buf).dropLast = pending ++ buf.take lf := by
              conv_lhs => rw [hbufeq]
              rw [show pending ++ (buf.take lf ++ ['\n'])
                  = (pending ++ buf.take lf) ++ ['\n'] by simp, List.dropLast_concat]
            rw [hstep, rlSpec, if_pos ⟨rfl, hglast⟩, hdl]
            exact hres
          · -- found the LF ending the previous line: break
            have hdropA := rfindLF_drop1 hfind
            have htakeA := rfindLF_take1 hfind
            have hmem : '\n' ∈ buf := rfindLF_mem hfind
            have hstep : rlGo bufsize (fuel + 1) pending buf chunkv
                = (buf.drop (lf + 1) ++ chunkv, pending, buf.take (lf + 1)) := by
              simp only [rlGo, hfind]
              rw [if_neg hb, if_neg hsp]
            have hcond : ¬(chunkv = [] ∧ (pending ++ buf).getLast? = some '\n') := by
              rintro ⟨hc0, hlast⟩
              apply hsp
              refine ⟨hc0, ?_⟩
              by_contra hne
              have hlen := (rfindLF_some buf lf hfind).2
              have htne : tailNoLF buf ≠ [] := by
                intro h0
                rw [h0] at hlen
                simp at hlen
                omega
              obtain ⟨L, c, hLc⟩ : ∃ L c, tailNoLF buf = L ++ [c] := by
                rcases List.eq_nil_or_concat (tailNoLF buf) with h0 | ⟨L, c, h0⟩
                · exact absurd h0 htne
                · exact ⟨L, c, by simpa [List.concat_eq_append] using h0⟩
              have hcne : c ≠ '\n' := by
                intro he
                apply tailNoLF_not_mem buf
                rw [hLc, he]
                simp
              have hsplit : pending ++ buf = (pending ++ dropTail buf ++ L) ++ [c] := by
                conv_lhs => rw [← dropTail_append_tail buf]
                rw [hLc]
                simp
              rw [hsplit, List.getLast?_concat] at hlast
              injection hlast with he
              exact hcne he
            rw [hstep, rlSpec, if_neg hcond]
            refine ⟨?_, ?_⟩
            · rw [show ((buf.drop (lf + 1) ++ chunkv, pending, buf.take (lf + 1)) :
                  List Char × List Char × List Char).1 = buf.drop (lf + 1) ++ chunkv from rfl,
                hdropA, tailNoLF_append_left pending buf hmem]
            · rw [show ((buf.drop (lf + 1) ++ chunkv, pending, buf.take (lf + 1)) :
                  List Char × List Char × List Char).2.1 = pending from rfl,
                show ((buf.drop (lf + 1) ++ chunkv, pending, buf.take (lf + 1)) :
                  List Char × List Char × List Char).2.2 = buf.take (lf + 1) from rfl,
                htakeA, dropTail_append_left pending buf hmem]

/-- readline iterated until it returns an empty line (EOF): all lines of
the remaining content, from end to start. -/
def rlReadAll (bufsize : ℕ) : ℕ → List Char → List Char → List (List Char)
| 0, _, _ => []
| fuel + 1, pending, buf =>
    if (rlGo bufsize (2 * pending.length + buf.length + 1) pending buf []).1 = [] then []
    else
      (rlGo bufsize (2 * pending.length + buf.length + 1) pending buf []).1 ::
        rlReadAll bufsize fuel
          (rlGo bufsize (2 * pending.length + buf.length + 1) pending buf []).2.1
          (rlGo bufsize (2 * pending.length + buf.length + 1) pending buf []).2.2

/-- All lines read by a _ReverseLineReader over the given file content. -/
def rlrLines (bufsize : ℕ) (content : List Char) : List (List Char) :=
  rlReadAll bufsize (content.length + 1) content []

/-- The lines of a file, in file order, each keeping its trailing LF (the
last one may lack it). -/
def lines : List Char → List (List Char)
| [] => []
| c :: rest =>
    if c = '\n' then ['\n'] :: lines rest
    else
      match lines rest with
      | [] => [[c]]
      | l :: ls => (c :: l) :: ls

lemma lines_eq_nil_iff (l : List Char) : lines l = [] ↔ l = [] := by
  cases l with
  | nil => simp [lines]
  | cons c rest =>
      simp only [lines]
      by_cases hc : c = '\n'
      · simp [hc]
      · rw [if_neg hc]
        rcases lines rest with _ | ⟨L, Ls⟩ <;> simp

lemma lines_cons_lf (rest : List Char) : lines ('\n' :: rest) = ['\n'] :: lines rest := by
  simp [lines]

lemma lines_cons_ne (c : Char) (rest : List Char) (hc : c ≠ '\n') (L : List Char)
    (Ls : List (List Char)) (h : lines rest = L :: Ls) :
    lines (c :: rest) = (c :: L) :: Ls := by
  rw [lines, if_neg hc, h]

lemma lines_cons_ne_nil (c : Char) (hc : c ≠ '\n') : lines [c] = [[c]] := by
  simp [lines, hc]

lemma linesA : ∀ (s t : List Char), (s = [] ∨ s.getLast? = some '\n') →
    lines (s ++ t) = lines s ++ lines t := by
  intro s
  induction s with
  | nil => intro t _; simp [lines]
  | cons c s' ih =>
      intro t hP
      have hlast : (c :: s').getLast? = some '\n' := by
        rcases hP with h | h
        · exact absurd h (by simp)
        · exact h
      have hP' : s' = [] ∨ s'.getLast? = some '\n' := by
        rcases s' with _ | ⟨d, s''⟩
        · exact Or.inl rfl
        · right
          rw [List.getLast?_cons_cons] at hlast
          exact hlast
      by_cases hc : c = '\n'
      · subst hc
        rw [List.cons_append, lines_cons_lf, ih t hP', lines_cons_lf]
        rfl
      · have hs' : s' ≠ [] := by
          intro h0
          subst h0
          simp at hlast
          exact hc hlast
        obtain ⟨L, Ls, hLs⟩ : ∃ L Ls, lines s' = L :: Ls := by
          rcases hl : lines s' with _ | ⟨L, Ls⟩
          · exact absurd ((lines_eq_nil_iff s').mp hl) hs'
          · exact ⟨L, Ls, rfl⟩
        have h1 : lines (s' ++ t) = L :: (Ls ++ lines t) := by
          rw [ih t hP', hLs]
          rfl
        rw [List.cons_append, lines_cons_ne c _ hc _ _ h1, lines_cons_ne c s' hc _ _ hLs]
        rfl

lemma linesB (t : List Char) (h : '\n' ∉ t) (hne : t ≠ []) : lines t = [t] := by
  induction t with
  | nil => exact absurd rfl hne
  | cons c t' ih =>
      have hc : c ≠ '\n' := by
        intro he
        exact h (by rw [he]; simp)
      have ht' : '\n' ∉ t' := fun hm => h (List.mem_cons_of_mem c hm)
      by_cases h0 : t' = []
      · subst h0
        exact lines_cons_ne_nil c hc
      · rw [lines_cons_ne c t' hc t' [] (ih ht' h0)]

lemma linesC (t : List Char) (h : '\n' ∉ t) : lines (t ++ ['\n']) = [t ++ ['\n']] := by
  induction t with
  | nil => simp [lines_cons_lf, lines]
  | cons c t' ih =>
      have hc : c ≠ '\n' := by
        intro he
        exact h (by rw [he]; simp)
      have ht' : '\n' ∉ t' := fun hm => h (List.mem_cons_of_mem c hm)
      rw [List.cons_append, lines_cons_ne c (t' ++ ['\n']) hc _ _ (ih ht')]

lemma tailNoLF_ne_nil {rem : List Char} (hne : rem ≠ [])
    (hlast : rem.getLast? ≠ some '\n') : tailNoLF rem ≠ [] := by
  obtain ⟨L, c, hLc⟩ : ∃ L c, rem = L ++ [c] := by
    rcases List.eq_nil_or_concat rem with h0 | ⟨L, c, h0⟩
    · exact absurd h0 hne
    · exact ⟨L, c, by simpa [List.concat_eq_append] using h0⟩
  have hc : c ≠ '\n' := by
    intro he
    apply hlast
    rw [hLc, he]
    exact List.getLast?_concat _
  rw [hLc, tailNoLF_append_right L [c] (by simp [Ne.symm hc])]
  simp

lemma lines_split_noLF (rem : List Char) (hne : rem ≠ [])
    (hlast : rem.getLast? ≠ some '\n') :
    lines rem = lines (dropTail rem) ++ [tailNoLF rem] := by
  have htne : tailNoLF rem ≠ [] := tailNoLF_ne_nil hne hlast
  have hB := linesB (tailNoLF rem) (tailNoLF_not_mem rem) htne
  have hA := linesA (dropTail rem) (tailNoLF rem) (dropTail_getLast rem)
  calc lines rem = lines (dropTail rem ++ tailNoLF rem) := by rw [dropTail_append_tail]
    _ = lines (dropTail rem) ++ lines (tailNoLF rem) := hA
    _ = lines (dropTail rem) ++ [tailNoLF rem] := by rw [hB]

lemma lines_split_LF (rem : List Char) (hlast : rem.getLast? = some '\n') :
    lines rem = lines (dropTail rem.dropLast) ++ [tailNoLF rem.dropLast ++ ['\n']] := by
  have hne : rem ≠ [] := by
    intro h0
    rw [h0] at hlast
    exact absurd hlast (by simp)
  obtain ⟨L, c, hLc⟩ : ∃ L c, rem = L ++ [c] := by
    rcases List.eq_nil_or_concat rem with h0 | ⟨L, c, h0⟩
    · exact absurd h0 hne
    · exact ⟨L, c, by simpa [List.concat_eq_append] using h0⟩
  have hc : c = '\n' := by
    rw [hLc, List.getLast?_concat] at hlast
    exact Option.some.inj hlast
  subst hc
  subst hLc
  rw [List.dropLast_concat]
  have hsplit : L ++ ['\n'] = dropTail L ++ (tailNoLF L ++ ['\n']) := by
    conv_lhs => rw [← dropTail_append_tail L]
    rw [List.append_assoc]
  rw [hsplit, linesA (dropTail L) (tailNoLF L ++ ['\n']) (dropTail_getLast L),
    linesC (tailNoLF L) (tailNoLF_not_mem L)]

lemma rlReadAll_spec (bufsize : ℕ) (hbs : 1 ≤ bufsize) :
    ∀ (fuel : ℕ) (pending buf : List Char), (pending ++ buf).length < fuel →
      rlReadAll bufsize fuel pending buf = (lines (pending ++ buf)).reverse := by
  intro fuel
  induction fuel using Nat.strong_induction_on with
  | _ fuel ih =>
      rcases fuel with _ | fuel
      · intro pending buf hf
        exact absurd hf (by omega)
      intro pending buf hf
      have hspec := rlGo_spec bufsize hbs (2 * pending.length + buf.length + 1)
        pending buf [] (by omega)
      by_cases hrem : pending ++ buf = []
      · have h1 : (rlGo bufsize (2 * pending.length + buf.length + 1) pending buf []).1
            = [] := by
          rw [hspec.1, hrem]
          simp [rlSpec, tailNoLF, dropTail]
        rw [rlReadAll, if_pos h1, hrem]
        simp [lines]
      · have hlen1 : 1 ≤ (pending ++ buf).length := List.length_pos.mpr hrem
        by_cases hlast : (pending ++ buf).getLast? = some '\n'
        · have hsp1 : (rlSpec (pending ++ buf) ([] : List Char)).1 =
              tailNoLF (pending ++ buf).dropLast ++ ['\n'] := by
            rw [rlSpec, if_pos ⟨rfl, hlast⟩]
          have hsp2 : (rlSpec (pending ++ buf) ([] : List Char)).2 =
              dropTail (pending ++ buf).dropLast := by
            rw [rlSpec, if_pos ⟨rfl, hlast⟩]
          have h1 : (rlGo bufsize (2 * pending.length + buf.length + 1) pending buf []).1
              ≠ [] := by
            rw [hspec.1, hsp1]
            simp
          have hcat := hspec.2.trans hsp2
          have hlen2 : ((rlGo bufsize (2 * pending.length + buf.length + 1)
                pending buf []).2.1
              ++ (rlGo bufsize (2 * pending.length + buf.length + 1) pending buf []).2.2).length
              ≤ (pending ++ buf).length - 1 := by
            rw [hcat]
            have hd := dropTail_length (pending ++ buf).dropLast
            have hdl : (pending ++ buf).dropLast.length = (pending ++ buf).length - 1 := by
              simp
            omega
          have hih := ih fuel (by omega)
            (rlGo bufsize (2 * pending.length + buf.length + 1) pending buf []).2.1
            (rlGo bufsize (2 * pending.length + buf.length + 1) pending buf []).2.2
            (by
              have hl3 : (pending ++ buf).length < fuel + 1 := by simpa using hf
              omega)
          rw [rlReadAll, if_neg h1, hih, hcat, hspec.1, hsp1,
            lines_split_LF (pending ++ buf) hlast]
          simp
        · have hsp1 : (rlSpec (pending ++ buf) ([] : List Char)).1 =
              tailNoLF (pending ++ buf) ++ [] := by
            rw [rlSpec, if_neg (by rintro ⟨_, h2⟩; exact hlast h2)]
          have hsp2 : (rlSpec (pending ++ buf) ([] : List Char)).2 =
              dropTail (pending ++ buf) := by
            rw [rlSpec, if_neg (by rintro ⟨_, h2⟩; exact hlast h2)]
          have htne := tailNoLF_ne_nil hrem hlast
          have h1 : (rlGo bufsize (2 * pending.length + buf.length + 1) pending buf []).1
              ≠ [] := by
            rw [hspec.1, hsp1]
            simpa using htne
          have hcat := hspec.2.trans hsp2
          have hlen2 : ((rlGo bufsize (2 * pending.length + buf.length + 1)
                pending buf []).2.1
              ++ (rlGo bufsize (2 * pending.length + buf.length + 1) pending buf []).2.2).length
              ≤ (pending ++ buf).length - 1 := by
            rw [hcat]
            have hd := dropTail_length (pending ++ buf)
            have htl : 1 ≤ (tailNoLF (pending ++ buf)).length :=
              List.length_pos.mpr htne
            omega
          have hih := ih fuel (by omega)
            (rlGo bufsize (2 * pending.length + buf.length + 1) pending buf []).2.1
            (rlGo bufsize (2 * pending.length + buf.length + 1) pending buf []).2.2
            (by
              have hl3 : (pending ++ buf).length < fuel + 1 := by simpa using hf
              omega)
          rw [rlReadAll, if_neg h1, hih, hcat, hspec.1, hsp1,
            lines_split_noLF (pending ++ buf) hrem hlast]
          simp

lemma rlrLines_spec (bufsize : ℕ) (hbs : 1 ≤ bufsize) (content : List Char) :
    rlrLines bufsize content = (lines content).reverse := by
  have h := rlReadAll_spec bufsize hbs (content.length + 1) content []
    (by simp)
  simpa [rlrLines] using h

/-- Does the entry carry its own timestamp?  Only messages can lack utc
(eNB logs older than 2022-12-01). -/
def hasUtc : XEntry → Bool
| .msgE none _ => false
| _ => true

/-- The typed item a Reader yields for an entry that needs no timestamp
reconstruction. -/
def entryOut : XEntry → ROut
| .syncE a t sv => .oSync a t sv
| .eventE t => .oEvent t
| .msgE (some u) t => .oMsg u t
| .msgE none _ => .oNoTs
| .errE => .oErr

/-- Output of flushing one queue item whose timestamp needs no covering
sync. -/
def qOut : QItem → ROut
| .qe x => entryOut x
| .qlos => .oLos

/-- No run of consecutive non-sync entries exceeds LOS_window, starting
with n non-sync entries already seen since the last sync. -/
def losFreeFrom : ℕ → List XEntry → Bool
| _, [] => true
| n, x :: rest =>
    if isSyncE x then losFreeFrom 0 rest
    else if n + 1 ≤ LOS_window then losFreeFrom (n + 1) rest
    else false

/-- State after flushing a whole queue. -/
def flushSt (st : RdState) : List QItem → RdState
| [] => st
| i :: q => flushSt (flushOne st i).2 q

lemma flushOne_n_nosync (st : RdState) (i : QItem) :
    (flushOne st i).2.n_nosync = st.n_nosync := by
  rcases i with x | _
  · rcases x with ⟨a, t, sv⟩ | t | ⟨u, t⟩ | _
    · cases a <;> rfl
    · rfl
    · rcases u with _ | uu
      · rcases h : st.sync with _ | ⟨ts, sv2⟩
        · simp [flushOne, h]
        · rcases sv2 with _ | srvt <;> simp [flushOne, h]
      · rfl
    · rfl
  · rfl

lemma flushSt_n_nosync : ∀ (q : List QItem) (st : RdState),
    (flushSt st q).n_nosync = st.n_nosync := by
  intro q
  induction q with
  | nil => intro st; rfl
  | cons i q ih =>
      intro st
      show (flushSt (flushOne st i).2 q).n_nosync = st.n_nosync
      rw [ih, flushOne_n_nosync]

lemma flushOne_out {st : RdState} {x : XEntry} (h : hasUtc x = true) :
    (flushOne st (QItem.qe x)).1 = entryOut x := by
  rcases x with ⟨a, t, sv⟩ | t | ⟨u, t⟩ | _
  · rfl
  · rfl
  · rcases u with _ | uu
    · simp [hasUtc] at h
    · rfl
  · rfl

lemma losFree_nonsync {n : ℕ} {x : XEntry} {rest : List XEntry}
    (hx : isSyncE x = false) (h : losFreeFrom n (x :: rest) = true) :
    n + 1 ≤ LOS_window ∧ losFreeFrom (n + 1) rest = true := by
  by_cases hn : n + 1 ≤ LOS_window
  · refine ⟨hn, ?_⟩
    simpa [losFreeFrom, hx, hn] using h
  · exact absurd h (by simp [losFreeFrom, hx, hn])

lemma readahead_spec : ∀ (inp : List XEntry) (st : RdState) (q : List QItem),
    losFreeFrom st.n_nosync inp = true →
    ∃ consumed rest1,
      inp = consumed ++ rest1 ∧
      readahead st q inp = ((readahead st q inp).1, q ++ consumed.map QItem.qe, rest1) ∧
      losFreeFrom (readahead st q inp).1.n_nosync rest1 = true ∧
      (inp ≠ [] → consumed ≠ []) := by
  intro inp
  induction inp with
  | nil =>
      intro st q hlos
      refine ⟨[], [], rfl, by simp [readahead], ?_, by simp⟩
      simpa [readahead] using hlos
  | cons x rest ih =>
      intro st q hlos
      cases x with
      | syncE a t sv =>
          refine ⟨[XEntry.syncE a t sv], rest, rfl, by simp [readahead, raStep], ?_, by simp⟩
          have h1 : (readahead st q (XEntry.syncE a t sv :: rest)).1.n_nosync = 0 := by
            simp [readahead, raStep]
          rw [h1]
          simpa [losFreeFrom, isSyncE] using hlos
      | eventE t =>
          obtain ⟨hn, hrest⟩ := losFree_nonsync (by simp [isSyncE]) hlos
          have hnot : ¬(st.n_nosync + 1 > LOS_window) := by omega
          refine ⟨[XEntry.eventE t], rest, rfl,
            by simp [readahead, raStep, hnot], ?_, by simp⟩
          have h1 : (readahead st q (XEntry.eventE t :: rest)).1.n_nosync
              = st.n_nosync + 1 := by
            simp [readahead, raStep, hnot]
          rw [h1]
          exact hrest
      | errE =>
          obtain ⟨hn, hrest⟩ := losFree_nonsync (by simp [isSyncE]) hlos
          have hnot : ¬(st.n_nosync + 1 > LOS_window) := by omega
          refine ⟨[XEntry.errE], rest, rfl,
            by simp [readahead, raStep, hnot], ?_, by simp⟩
          have h1 : (readahead st q (XEntry.errE :: rest)).1.n_nosync
              = st.n_nosync + 1 := by
            simp [readahead, raStep, hnot]
          rw [h1]
          exact hrest
      | msgE u t =>
          obtain ⟨hn, hrest⟩ := losFree_nonsync (by simp [isSyncE]) hlos
          have hnot : ¬(st.n_nosync + 1 > LOS_window) := by omega
          by_cases hsync : st.sync = none
          · have hre : readahead st q (XEntry.msgE u t :: rest)
                = readahead ⟨st.sync, st.n_nosync + 1⟩
                    (q ++ [QItem.qe (XEntry.msgE u t)]) rest := by
              simp [readahead, raStep, hnot, hsync]
            have hlos2 : losFreeFrom
                (RdState.mk st.sync (st.n_nosync + 1)).n_nosync rest = true := hrest
            obtain ⟨consumed, rest1, hsplit, heq, hlos1, hne⟩ :=
              ih ⟨st.sync, st.n_nosync + 1⟩ (q ++ [QItem.qe (XEntry.msgE u t)]) hlos2
            refine ⟨XEntry.msgE u t :: consumed, rest1, by simp [hsplit], ?_, ?_, by simp⟩
            · rw [hre, heq]
              simp
            · rw [hre, heq]
              simpa using hlos1
          · refine ⟨[XEntry.msgE u t], rest, rfl,
              by simp [readahead, raStep, hnot, hsync], ?_, by simp⟩
            have h1 : (readahead st q (XEntry.msgE u t :: rest)).1.n_nosync
                = st.n_nosync + 1 := by
              simp [readahead, raStep, hnot, hsync]
            rw [h1]
            exact hrest

lemma rdProcessF_flush : ∀ (q : List QItem) (fuel : ℕ) (st : RdState) (inp : List XEntry),
    q.length ≤ fuel → (∀ i ∈ q, ∃ x, i = QItem.qe x ∧ hasUtc x = true) →
    rdProcessF fuel st q inp
      = q.map qOut ++ rdProcessF (fuel - q.length) (flushSt st q) [] inp := by
  intro q
  induction q with
  | nil =>
      intro fuel st inp _ _
      simp [flushSt]
  | cons i q ih =>
      intro fuel st inp hle hgood
      rcases fuel with _ | f
      · exact absurd hle (by simp)
      obtain ⟨x, hx, hutc⟩ := hgood i (by simp)
      subst hx
      show (flushOne st (QItem.qe x)).1
          :: rdProcessF f (flushOne st (QItem.qe x)).2 q inp = _
      rw [flushOne_out hutc,
        ih f (flushOne st (QItem.qe x)).2 inp (by simpa using hle)
          (fun j hj => hgood j (by simp [hj]))]
      rw [show f + 1 - (QItem.qe x :: q).length = f - q.length from by
        simp only [List.length_cons]
        omega]
      rfl

lemma rdProcessF_map : ∀ (fuel : ℕ) (inp : List XEntry) (st : RdState),
    3 * inp.length < fuel →
    (∀ x ∈ inp, hasUtc x = true) →
    losFreeFrom st.n_nosync inp = true →
    rdProcessF fuel st [] inp = inp.map entryOut := by
  intro fuel
  induction fuel using Nat.strong_induction_on with
  | _ fuel ih =>
      intro inp st hf hutc hlos
      rcases fuel with _ | f
      · exact absurd hf (by omega)
      rcases inp with _ | ⟨x, rest⟩
      · rfl
      obtain ⟨consumed, rest1, hsplit, heq, hlos1, hnec⟩ :=
        readahead_spec (x :: rest) st [] hlos
      have hcne : consumed ≠ [] := hnec (by simp)
      have hc1 : 1 ≤ consumed.length := List.length_pos.mpr hcne
      have hlensplit : consumed.length + rest1.length = rest.length + 1 := by
        have := congrArg List.length hsplit
        simp at this
        omega
      have hf2 : 3 * (rest.length + 1) < f + 1 := by
        simpa using hf
      show rdProcessF f (readahead st [] (x :: rest)).1
        (readahead st [] (x :: rest)).2.1 (readahead st [] (x :: rest)).2.2
        = (x :: rest).map entryOut
      rw [heq]
      show rdProcessF f (readahead st [] (x :: rest)).1
          ([] ++ consumed.map QItem.qe) rest1 = (x :: rest).map entryOut
      rw [List.nil_append]
      have hflush := rdProcessF_flush (consumed.map QItem.qe) f
        (readahead st [] (x :: rest)).1 rest1
        (by
          simp only [List.length_map]
          omega)
        (by
          intro i hi
          obtain ⟨y, hy, hiy⟩ := List.mem_map.mp hi
          exact ⟨y, hiy.symm, hutc y (by rw [hsplit]; exact List.mem_append_left _ hy)⟩)
      rw [hflush]
      have hcont := ih (f - (consumed.map QItem.qe).length)
        (by
          simp only [List.length_map]
          omega)
        rest1 (flushSt (readahead st [] (x :: rest)).1 (consumed.map QItem.qe))
        (by
          simp only [List.length_map]
          omega)
        (fun y hy => hutc y (by rw [hsplit]; exact List.mem_append_right _ hy))
        (by
          rw [flushSt_n_nosync]
          exact hlos1)
      rw [hcont]
      have hqout : (consumed.map QItem.qe).map qOut = consumed.map entryOut := by
        rw [List.map_map]
        rfl
      rw [hqout, hsplit, List.map_append]

/-- A Reader over entries all carrying utc, with no over-long non-sync
run, yields exactly one typed item per entry, in order. -/
lemma readerOutputs_map (inp : List XEntry)
    (hutc : ∀ x ∈ inp, hasUtc x = true)
    (hlos : losFreeFrom 0 inp = true) :
    readerOutputs inp = inp.map entryOut := by
  exact rdProcessF_map (3 * inp.length + 1) inp rdInit (by omega) hutc hlos

/-- Input exhibiting the forward/reverse asymmetry: a message without utc
between two attached syncs with different (timestamp - srv_time) offsets. -/
def c8inp : List XEntry :=
  [XEntry.syncE true 100 (some 0), XEntry.msgE none 5, XEntry.syncE true 200 (some 50)]

/-- C8 (amended): (a) for every buffer size >= 1 the reverse line reader
returns exactly the lines of the file from end to start, each with its
trailing newline intact; and (b) whenever every message of the entry
stream carries a utc timestamp and no run of consecutive non-sync entries
exceeds LOS_window in either reading direction, a Reader in reverse mode
yields exactly the typed entries of the forward Reader, in reversed
order.  Without the utc restriction the equivalence fails, because a
utc-less message gets its timestamp from the covering sync, which differs
between the two directions. -/
theorem c8_reverse_reader (bufsize : ℕ) (content : List Char) (inp : List XEntry)
    (hbs : 1 ≤ bufsize)
    (hutc : ∀ x ∈ inp, hasUtc x = true)
    (hlos : losFreeFrom 0 inp = true)
    (hlos2 : losFreeFrom 0 inp.reverse = true) :
    rlrLines bufsize content = (lines content).reverse ∧
    readerOutputs inp.reverse = (readerOutputs inp).reverse := by
  refine ⟨rlrLines_spec bufsize hbs content, ?_⟩
  rw [readerOutputs_map inp hutc hlos,
    readerOutputs_map inp.reverse (fun x hx => hutc x (List.mem_reverse.mp hx)) hlos2,
    List.map_reverse]

/-- C8 counterexample to the claim as stated: for a log whose middle
message lacks utc, the reverse Reader reconstructs its timestamp from the
later sync (5 + (200 - 50) = 155) while the forward Reader uses the
earlier one (5 + (100 - 0) = 105), so the output sequences are not
reverses of each other. -/
theorem c8_reverse_timestamp_counterexample :
    readerOutputs (List.reverse c8inp) ≠ (readerOutputs c8inp).reverse := by
  with_unfolding_all decide

/-- Witness for c8_reverse_reader at a concrete file and entry stream. -/
theorem c8_reverse_reader_witness :
    rlrLines 1 ['a', 'b', '\n', 'c'] = (lines ['a', 'b', '\n', 'c']).reverse ∧
    readerOutputs (List.reverse [XEntry.syncE true 100 (some 0),
        XEntry.msgE (some 7) 5, XEntry.eventE 3])
      = (readerOutputs [XEntry.syncE true 100 (some 0),
          XEntry.msgE (some 7) 5, XEntry.eventE 3]).reverse :=
  c8_reverse_reader 1 ['a', 'b', '\n', 'c']
    [XEntry.syncE true 100 (some 0), XEntry.msgE (some 7) 5, XEntry.eventE 3]
    (by decide) (by decide) (by with_unfolding_all decide) (by with_unfolding_all decide)

end Xlte
